import Mathlib

/-!
Verification of the path-addressed JSON mutation engine embedded in the
NodeModal "Save" action (src/features/modals/NodeModal/index.tsx) and of the
json:update subscriber in the editor page (src/pages/editor.tsx).

The JavaScript runtime semantics relevant to the Save handler are embedded
shallowly:

* JSON values are modeled by `Json`.  Object properties are ordered
  association lists with unique keys (JavaScript objects preserve insertion
  order; `JSON.parse` collapses duplicate keys by updating in place, which
  `buildObj` reproduces).  Numbers are modeled as integers: the documents in
  the reviewed behaviours only carry integer literals, and floating point is
  outside the scope of this embedding (documents containing fractional or
  exponent literals are not modeled).  Very large integers (where JavaScript
  would switch to exponent notation) and UTF-16 surrogate-pair indexing are
  likewise outside scope.
* `JSON.parse` is modeled by `parseJson`, `JSON.stringify(v, null, 2)` by
  `stringify`; both operate on explicit character lists.
* Property reads `cursor[seg]` are modeled by `jsRead` (reading from
  `undefined` or `null` throws a TypeError; reading a missing property of an
  object yields `undefined`; primitives yield `undefined` except for string
  index access).  Property writes are modeled by `jsWrite`: the modules are
  strict-mode code, so assigning to a property of a primitive or of `null`
  throws a TypeError.  Assigning a non-index key to an array creates a
  property invisible to `JSON.stringify`; since only the serialized result is
  observable, this is modeled as a no-op.  Exotic property names (`length`,
  `__proto__`, array indices at or beyond 2^32) are not modeled.
* The in-place mutation of the aliased `cursor` returned by
  `traverseToParent` is realized purely by `mutateAt`, which repeats the same
  reads and writes the mutated cursor value back along the walked path.
-/

/-- A JSON value.  Object fields are in property insertion order. -/
inductive Json where
  | null : Json
  | bool : Bool → Json
  | num : Int → Json
  | str : String → Json
  | arr : List Json → Json
  | obj : List (String × Json) → Json

/-- One segment of a node path: an object key or an array index
(`NodeData["path"]` elements are `string | number`). -/
inductive Seg where
  | key : String → Seg
  | idx : Nat → Seg
deriving DecidableEq

/-- One row of `NodeData["text"]` as consumed by the Save handler.  Only the
`key` field is read by the Save handler (`row.key` truthiness and the value of
`nodeRows[0].key`); `value` is carried along for fidelity with the modal's
data model but never consulted by the save path. -/
structure Row where
  key : Option String := none
  value : Option Json := none

/-- The error outcomes of the Save click handler, by the throw site:
`docParse` for `JSON.parse(currentJson)` failing, `invalidInput` for the
explicit "Invalid JSON" throw, `unresolvedPath` for the explicit "Unable to
resolve target path in JSON." throw, and `typeErr` for JavaScript TypeErrors
(reading a property of `undefined`/`null`, assigning to a primitive). -/
inductive EditErr where
  | docParse : EditErr
  | invalidInput : EditErr
  | unresolvedPath : EditErr
  | typeErr : EditErr
deriving DecidableEq

/-- The two store-facing effects of a successful save, in program order:
`setJson` (the authoritative store write) and `emit` (the
`json:update` CustomEvent dispatched by `emitJsonUpdate`). -/
inductive Eff where
  | setJson : String → Eff
  | emit : String → Eff
deriving DecidableEq

/-- JavaScript truthiness of an optional string (`!row.key` is true for a
missing key and for the empty string). -/
def keyTruthy : Option String → Bool
  | none => false
  | some s => !s.isEmpty

/-- Property lookup in an object's ordered field list. -/
def lookupKey : List (String × Json) → String → Option Json
  | [], _ => none
  | (k, v) :: rest, k' => if k = k' then some v else lookupKey rest k'

/-- `o[k] = v` on an object: update the existing property in place (keeping
its position, as JavaScript does) or append a new property. -/
def setKey : List (String × Json) → String → Json → List (String × Json)
  | [], k, v => [(k, v)]
  | (k', v') :: rest, k, v =>
    if k' = k then (k, v) :: rest else (k', v') :: setKey rest k v

/-- `delete o[k]` on an object. -/
def delKey : List (String × Json) → String → List (String × Json)
  | [], _ => []
  | (k', v') :: rest, k => if k' = k then rest else (k', v') :: delKey rest k

/-- `a[i] = v` on an array.  Writing at or beyond the length extends the
array; the holes of the resulting sparse array serialize as `null`, so they
are materialized as `Json.null`. -/
def setIdx (xs : List Json) (i : Nat) (v : Json) : List Json :=
  if i < xs.length then xs.set i v
  else xs ++ List.replicate (i - xs.length) Json.null ++ [v]

/-- Object spread `\x7b ...a, ...b \x7d`: the keys of `b` are written over a
copy of `a` in order. -/
def objMerge (a b : List (String × Json)) : List (String × Json) :=
  b.foldl (fun acc kv => setKey acc kv.1 kv.2) a

/-- Building an object from parsed members in order, as JavaScript object
literals / `JSON.parse` do: later duplicate keys overwrite in place. -/
def buildObj (kvs : List (String × Json)) : List (String × Json) :=
  kvs.foldl (fun acc kv => setKey acc kv.1 kv.2) []

/-- Decimal digit to character. -/
def digitChar (d : Nat) : Char := Char.ofNat (48 + d)

/-- Decimal digits of a natural number, with explicit fuel (any fuel at
least `n` gives the digits of `n`; structural recursion on the fuel keeps
the definition kernel-reducible). -/
def natCharsAux : Nat → Nat → List Char
  | 0, n => [digitChar n]
  | fuel + 1, n =>
    if n < 10 then [digitChar n] else natCharsAux fuel (n / 10) ++ [digitChar (n % 10)]

/-- Decimal representation of a natural number (the digits JavaScript's
`String(n)` produces for integral `n`). -/
def natChars (n : Nat) : List Char := natCharsAux n n

/-- Decimal representation of an integer. -/
def intChars (n : Int) : List Char :=
  if n < 0 then '-' :: natChars n.natAbs else natChars n.toNat

/-- Lower-case hexadecimal digit to character. -/
def hexDigitChar (h : Nat) : Char :=
  Char.ofNat (if h < 10 then 48 + h else 87 + h)

/-- JSON string escaping as performed by `JSON.stringify` on one character:
quote, backslash, the short control escapes, and `\u00XX` for the remaining
control characters. -/
def escChar (c : Char) : List Char :=
  if c = '\"' then ['\\', '\"']
  else if c = '\\' then ['\\', '\\']
  else if c = '\n' then ['\\', 'n']
  else if c = '\t' then ['\\', 't']
  else if c = '\r' then ['\\', 'r']
  else if c = '\x08' then ['\\', 'b']
  else if c = '\x0c' then ['\\', 'f']
  else if c.toNat < 32 then
    ['\\', 'u', '0', '0', hexDigitChar (c.toNat / 16), hexDigitChar (c.toNat % 16)]
  else [c]

/-- Escape a whole string body. -/
def escChars : List Char → List Char
  | [] => []
  | c :: cs => escChar c ++ escChars cs

/-- A serialized JSON string literal, quotes included. -/
def quoteStr (s : String) : List Char :=
  '\"' :: escChars s.data ++ ['\"']

/-- `n` spaces of indentation. -/
def indentC (n : Nat) : List Char := List.replicate n ' '

mutual

/-- `JSON.stringify(v, null, 2)` at indentation level `ind`, as characters. -/
def serVal (ind : Nat) : Json → List Char
  | .null => 'n' :: ['u', 'l', 'l']
  | .bool true => 't' :: ['r', 'u', 'e']
  | .bool false => 'f' :: ['a', 'l', 's', 'e']
  | .num n => intChars n
  | .str s => quoteStr s
  | .arr [] => ['[', ']']
  | .arr (x :: xs) =>
    '[' :: '\n' :: serItems (ind + 2) (x :: xs) ++ '\n' :: indentC ind ++ [']']
  | .obj [] => ['\x7b', '\x7d']
  | .obj (kv :: kvs) =>
    '\x7b' :: '\n' :: serMembers (ind + 2) (kv :: kvs) ++ '\n' :: indentC ind ++ ['\x7d']

/-- Comma-and-newline separated array items, each on its own indented line. -/
def serItems (ind : Nat) : List Json → List Char
  | [] => []
  | [x] => indentC ind ++ serVal ind x
  | x :: y :: ys => indentC ind ++ serVal ind x ++ ',' :: '\n' :: serItems ind (y :: ys)

/-- Comma-and-newline separated object members. -/
def serMembers (ind : Nat) : List (String × Json) → List Char
  | [] => []
  | [(k, v)] => indentC ind ++ quoteStr k ++ ':' :: ' ' :: serVal ind v
  | (k, v) :: kv :: kvs =>
    indentC ind ++ quoteStr k ++ ':' :: ' ' :: serVal ind v ++
      ',' :: '\n' :: serMembers ind (kv :: kvs)

end

/-- `JSON.stringify(v, null, 2)`. -/
def stringify (v : Json) : String := String.mk (serVal 0 v)

/-! ## The JSON parser (`JSON.parse`)

A whitespace-tolerant recursive-descent parser over character lists.  The
container rules are fueled because the input is not structurally smaller at
nested values; every claim-level use supplies `length + 1` fuel, which is
proved sufficient for serialized values below.  Numbers are integers (see the
header); the parser is slightly more lenient than `JSON.parse` on leading
zeros, which no serialized value exercises. -/

/-- JSON insignificant whitespace. -/
def isWsChar (c : Char) : Bool :=
  c = ' ' || c = '\n' || c = '\t' || c = '\r'

/-- Skip insignificant whitespace. -/
def skipWs : List Char → List Char
  | [] => []
  | c :: cs => if isWsChar c then skipWs cs else c :: cs

/-- Value of a hexadecimal digit character. -/
def hexVal (c : Char) : Option Nat :=
  if '0' ≤ c ∧ c ≤ '9' then some (c.toNat - 48)
  else if 'a' ≤ c ∧ c ≤ 'f' then some (c.toNat - 87)
  else if 'A' ≤ c ∧ c ≤ 'F' then some (c.toNat - 55)
  else none

/-- Decode one escape shortcut character, if it is one. -/
def escShort (e : Char) : Option Char :=
  if e = 'n' then some '\n'
  else if e = 't' then some '\t'
  else if e = 'r' then some '\r'
  else if e = 'b' then some '\x08'
  else if e = 'f' then some '\x0c'
  else if e = '/' then some '/'
  else if e = '\"' then some '\"'
  else if e = '\\' then some '\\'
  else none

/-- Decode one escape sequence after the backslash, returning the decoded
character and the remaining input. -/
def decodeEsc : List Char → Option (Char × List Char)
  | [] => none
  | e :: rest2 =>
    match escShort e with
    | some d => some (d, rest2)
    | none =>
      if e = 'u' then
        match rest2 with
        | h1 :: h2 :: h3 :: h4 :: rest3 =>
          match hexVal h1, hexVal h2, hexVal h3, hexVal h4 with
          | some a, some b, some c, some d =>
            let n := ((a * 16 + b) * 16 + c) * 16 + d
            if n < 0xd800 then some (Char.ofNat n, rest3) else none
          | _, _, _, _ => none
        | _ => none
      else none

/-- Parse the body of a string literal after the opening quote, returning the
decoded characters and the input after the closing quote.  Fueled by one unit
per decoded character; every call site supplies the input length, which
suffices. -/
def parseStrBody : Nat → List Char → Option (List Char × List Char)
  | 0, _ => none
  | fuel + 1, cs =>
    match cs with
    | [] => none
    | c :: rest =>
      if c = '\"' then some ([], rest)
      else if c = '\\' then
        match decodeEsc rest with
        | some (d, rest3) => (parseStrBody fuel rest3).map (fun p => (d :: p.1, p.2))
        | none => none
      else if c.toNat < 32 then none
      else (parseStrBody fuel rest).map (fun p => (c :: p.1, p.2))

/-- Accumulate decimal digits, returning the value and the rest. -/
def readDigits (acc : Nat) : List Char → Nat × List Char
  | [] => (acc, [])
  | c :: cs =>
    if c.isDigit then readDigits (acc * 10 + (c.toNat - 48)) cs else (acc, c :: cs)

mutual

/-- Parse one JSON value, returning it and the remaining input. -/
def parseVal : Nat → List Char → Option (Json × List Char)
  | 0, _ => none
  | fuel + 1, cs =>
    match skipWs cs with
    | [] => none
    | c :: r =>
      if c = '\x7b' then
        match skipWs r with
        | '\x7d' :: r2 => some (.obj [], r2)
        | r2 =>
          match parseMembers fuel r2 with
          | some (kvs, r3) =>
            match skipWs r3 with
            | '\x7d' :: r4 => some (.obj (buildObj kvs), r4)
            | _ => none
          | none => none
      else if c = '[' then
        match skipWs r with
        | ']' :: r2 => some (.arr [], r2)
        | r2 =>
          match parseItems fuel r2 with
          | some (xs, r3) =>
            match skipWs r3 with
            | ']' :: r4 => some (.arr xs, r4)
            | _ => none
          | none => none
      else if c = '\"' then
        (parseStrBody r.length r).map (fun p => (.str (String.mk p.1), p.2))
      else if c = 't' then
        match r with
        | 'r' :: 'u' :: 'e' :: r2 => some (.bool true, r2)
        | _ => none
      else if c = 'f' then
        match r with
        | 'a' :: 'l' :: 's' :: 'e' :: r2 => some (.bool false, r2)
        | _ => none
      else if c = 'n' then
        match r with
        | 'u' :: 'l' :: 'l' :: r2 => some (.null, r2)
        | _ => none
      else if c = '-' then
        match r with
        | [] => none
        | d :: r2 =>
          if d.isDigit then
            let p := readDigits 0 (d :: r2)
            some (.num (-(p.1 : Int)), p.2)
          else none
      else if c.isDigit then
        let p := readDigits 0 (c :: r)
        some (.num (p.1 : Int), p.2)
      else none

/-- Parse a comma-separated list of array items (at least one), stopping
before the closing bracket. -/
def parseItems : Nat → List Char → Option (List Json × List Char)
  | 0, _ => none
  | fuel + 1, cs =>
    match parseVal fuel cs with
    | some (v, r) =>
      match skipWs r with
      | ',' :: r2 =>
        match parseItems fuel r2 with
        | some (vs, r3) => some (v :: vs, r3)
        | none => none
      | _ => some ([v], r)
    | none => none

/-- Parse a comma-separated list of object members (at least one), stopping
before the closing brace. -/
def parseMembers : Nat → List Char → Option (List (String × Json) × List Char)
  | 0, _ => none
  | fuel + 1, cs =>
    match skipWs cs with
    | '\"' :: r =>
      match parseStrBody r.length r with
      | some (kcs, r2) =>
        match skipWs r2 with
        | ':' :: r3 =>
          match parseVal fuel r3 with
          | some (v, r4) =>
            match skipWs r4 with
            | ',' :: r5 =>
              match parseMembers fuel r5 with
              | some (kvs, r6) => some ((String.mk kcs, v) :: kvs, r6)
              | none => none
            | _ => some ([(String.mk kcs, v)], r4)
          | none => none
        | _ => none
      | none => none
    | _ => none

end

/-- `JSON.parse(s)`: parse a complete document, requiring only trailing
whitespace after the value. -/
def parseJson (s : String) : Option Json :=
  match parseVal (s.data.length + 1) s.data with
  | some (v, rest) => if skipWs rest = [] then some v else none
  | none => none

/-! ## JavaScript property access semantics

`cursor[seg]` reads and `cursor[seg] = v` writes as they behave in the
strict-mode Save handler. -/

/-- The string form of a path segment (JavaScript converts numeric property
names to strings for object access). -/
def segKey : Seg → String
  | .key s => s
  | .idx n => String.mk (natChars n)

/-- A canonical array-index string (`arr["2"]` is element access, `arr["02"]`
is not). -/
def canonIdx (s : String) : Option Nat :=
  match s.data with
  | [] => none
  | c :: cs =>
    if (c :: cs).all Char.isDigit && (c ≠ '0' || cs.isEmpty) then
      some (readDigits 0 (c :: cs)).1
    else none

/-- The array-index reading of a path segment, if any. -/
def segIdx : Seg → Option Nat
  | .idx n => some n
  | .key s => canonIdx s

/-- `cursor[seg]` in strict mode: reading from `undefined` (`none`) or `null`
throws a TypeError; missing properties read as `undefined`; primitives have
no own properties except string index access. -/
def jsRead : Option Json → Seg → Except EditErr (Option Json)
  | none, _ => .error .typeErr
  | some .null, _ => .error .typeErr
  | some (.bool _), _ => .ok none
  | some (.num _), _ => .ok none
  | some (.str s), seg =>
    match segIdx seg with
    | some i => .ok ((s.data.get? i).map (fun c => Json.str (String.mk [c])))
    | none => .ok none
  | some (.arr xs), seg =>
    match segIdx seg with
    | some i => .ok (xs.get? i)
    | none => .ok none
  | some (.obj kvs), seg => .ok (lookupKey kvs (segKey seg))

/-- `cursor[seg] = v` in strict mode: assigning to a property of a primitive
or of `null` throws a TypeError; a non-index property written to an array is
invisible to `JSON.stringify` and is modeled as a no-op. -/
def jsWrite : Json → Seg → Json → Except EditErr Json
  | .obj kvs, seg, v => .ok (.obj (setKey kvs (segKey seg) v))
  | .arr xs, seg, v =>
    match segIdx seg with
    | some i => .ok (.arr (setIdx xs i v))
    | none => .ok (.arr xs)
  | _, _, _ => .error .typeErr

/-- The read-only walk of `traverseToParent`'s for-loop: `cursor =
cursor[seg]` over the given segments. -/
def walkSegs : Option Json → List Seg → Except EditErr (Option Json)
  | cur, [] => .ok cur
  | cur, seg :: rest =>
    match jsRead cur seg with
    | .error e => .error e
    | .ok child => walkSegs child rest

/-- Walk to a location and apply a mutation to the cursor found there,
writing the mutated cursor back along the same reads (the pure rendering of
the source's in-place mutation of the aliased `cursor`). -/
def mutateAt : Option Json → List Seg → (Option Json → Except EditErr Json) →
    Except EditErr Json
  | cur, [], f => f cur
  | cur, seg :: rest, f =>
    match jsRead cur seg with
    | .error e => .error e
    | .ok child =>
      match mutateAt child rest f with
      | .error e => .error e
      | .ok newChild =>
        match cur with
        | some c => jsWrite c seg newChild
        | none => .error .typeErr

/-- `fullPath.slice(0, -1)` and `fullPath[fullPath.length - 1]` of
`traverseToParent`, defined only for non-empty paths. -/
def splitLast : List Seg → Option (List Seg × Seg)
  | [] => none
  | [s] => some ([], s)
  | s :: s' :: rest => (splitLast (s' :: rest)).map (fun p => (s :: p.1, p.2))

/-! ## The Save click handler -/

/-- `nodeRows.length > 0 && nodeRows.some(r => r.key)`. -/
def isEditingObjectFields (rows : List Row) : Bool :=
  decide (0 < rows.length) && rows.any (fun r => keyTruthy r.key)

/-- `nodeRows.length === 1 && !nodeRows[0].key`: the node is a scalar leaf
eligible for the literal-string fallback. -/
def scalarLeaf : List Row → Bool
  | [r] => !keyTruthy r.key
  | _ => false

/-- The guard of the rename special case: exactly one keyed row and the new
value is a (non-array, non-null) object with exactly one key. -/
def renameShape : List Row → Json → Bool
  | [r], .obj [_] => keyTruthy r.key
  | _, _ => false

/-- `x && typeof x === "object" && !Array.isArray(x)` for a JSON value
(`null` is falsy, arrays are excluded). -/
def isPlainObj : Json → Bool
  | .obj _ => true
  | _ => false

/-- The same plain-object test on a possibly-`undefined` value. -/
def isSomePlainObj : Option Json → Bool
  | some (.obj _) => true
  | _ => false

/-- `\x7b ...target, ...newValue \x7d` when both are plain objects (the only
situation in which the handler builds this spread). -/
def spreadMerge : Option Json → Json → Json
  | some (.obj tk), .obj nk => .obj (objMerge tk nk)
  | _, nv => nv

/-- `nodeRows[0].key` where the rename guard guarantees a truthy key. -/
def rowsOldKey : List Row → String
  | r :: _ => r.key.getD ""
  | [] => ""

/-- `Object.keys(newValue)[0]` paired with `newValue[Object.keys(newValue)[0]]`
where the rename guard guarantees exactly one key. -/
def firstEntry : Json → String × Json
  | .obj ((k, v) :: _) => (k, v)
  | _ => ("", .null)

/-- Parse `editedText`: `JSON.parse` with the literal-string fallback for a
scalar leaf, otherwise the "Invalid JSON" error. -/
def determineNewValue (rows : List Row) (editedText : String) : Except EditErr Json :=
  match parseJson editedText with
  | some v => .ok v
  | none => if scalarLeaf rows then .ok (.str editedText) else .error .invalidInput

/-- `currentJson ? JSON.parse(currentJson) : \x7b\x7d`: the empty string is
falsy, any other unparseable store content throws. -/
def parseRoot (currentJson : String) : Except EditErr Json :=
  if currentJson.isEmpty then .ok (.obj [])
  else
    match parseJson currentJson with
    | some v => .ok v
    | none => .error .docParse

/-- The mutation applied at the parent cursor for a non-root edit: the
explicit undefined-cursor check, then the merge / rename-special-case /
replace cascade, each ending in the assignment `cursor[lastKey] = ...`. -/
def applyAtCursor (rows : List Row) (lastKey : Seg) (newValue : Json)
    (cursor : Option Json) : Except EditErr Json :=
  match cursor with
  | none => .error .unresolvedPath
  | some cur =>
    match jsRead (some cur) lastKey with
    | .error e => .error e
    | .ok target =>
      if isEditingObjectFields rows && isSomePlainObj target && isPlainObj newValue then
        jsWrite cur lastKey (spreadMerge target newValue)
      else if renameShape rows newValue then
        match target with
        | some (.obj pk) =>
          let oldKey := rowsOldKey rows
          let nk := firstEntry newValue
          let p1 := setKey pk nk.1 nk.2
          let p2 := if nk.1 ≠ oldKey then delKey p1 oldKey else p1
          jsWrite cur lastKey (.obj p2)
        | some .null => .error .typeErr
        | _ => jsWrite cur lastKey newValue
      else jsWrite cur lastKey newValue

/-- The root-edit branch: merge into a plain-object root when the modal
showed keyed rows and the new value is a plain object, else replace the
root.  Both sub-branches produce `finalJson` and then perform `setJson`
followed by `emitJsonUpdate`. -/
def saveRoot (rows : List Row) (parsedRoot newValue : Json) : String × List Eff :=
  if isEditingObjectFields rows && isPlainObj newValue then
    let merged := if isPlainObj parsedRoot then spreadMerge (some parsedRoot) newValue
      else newValue
    let fj := stringify merged
    (fj, [.setJson fj, .emit fj])
  else
    let fj := stringify newValue
    (fj, [.setJson fj, .emit fj])

/-- The Save onClick body: parse the store, determine the new value, then
either the root branch or traverse-and-mutate, producing `finalJson` and the
ordered store/broadcast effects; any thrown error is propagated. -/
def saveRun (currentJson : String) (rows : List Row) (path : List Seg)
    (editedText : String) : Except EditErr (String × List Eff) :=
  match parseRoot currentJson with
  | .error e => .error e
  | .ok parsedRoot =>
    match determineNewValue rows editedText with
    | .error e => .error e
    | .ok newValue =>
      match splitLast path with
      | none => .ok (saveRoot rows parsedRoot newValue)
      | some (pp, lastKey) =>
        match mutateAt (some parsedRoot) pp (applyAtCursor rows lastKey newValue) with
        | .error e => .error e
        | .ok newRoot =>
          let fj := stringify newRoot
          .ok (fj, [.setJson fj, .emit fj])

/-- The document produced by a save, ignoring the effect list. -/
def save (currentJson : String) (rows : List Row) (path : List Seg)
    (editedText : String) : Except EditErr String :=
  (saveRun currentJson rows path editedText).map Prod.fst

/-! ## The authoritative store, the sync channel, and the subscriber -/

/-- The observable state around a Save click: the `useJson` store value, the
sequence of `json:update` broadcasts so far, and the modal's inline error. -/
structure ClickState where
  store : String
  broadcasts : List String
  errorMsg : Option EditErr

/-- Execute one effect against the state. -/
def runEff (st : ClickState) : Eff → ClickState
  | .setJson s => { st with store := s }
  | .emit s => { st with broadcasts := st.broadcasts ++ [s] }

/-- A full Save click: on success the effects run in order and the error is
cleared; on any thrown error only the inline error changes. -/
def clickSave (st : ClickState) (rows : List Row) (path : List Seg)
    (text : String) : ClickState :=
  match saveRun st.store rows path text with
  | .ok (_, effs) => { effs.foldl runEff st with errorMsg := none }
  | .error e => { st with errorMsg := some e }

/-- The editor page's local state observed by the `json:update` handler: the
React `editorValue` state and the Monaco buffer (if a Monaco ref is
attached). -/
structure EditorState where
  editorValue : String
  monacoValue : Option String

/-- The `json:update` listener of the editor page: an empty (falsy) payload
returns early; the functional state update returns the previous value
unchanged when it already equals the payload (no re-render), and Monaco's
`setValue` runs only when its current buffer differs.  The two booleans
report whether a state update and an editor re-set occurred. -/
def jsonUpdateHandler (st : EditorState) (detail : String) :
    EditorState × Bool × Bool :=
  if detail.isEmpty then (st, false, false)
  else
    let ed := if st.editorValue = detail then (st.editorValue, false) else (detail, true)
    let mon :=
      match st.monacoValue with
      | none => ((none : Option String), false)
      | some cur => if cur = detail then (some cur, false) else (some detail, true)
    (⟨ed.1, mon.1⟩, ed.2, mon.2)

/-! ## Auxiliary measures and invariants used by the proofs -/

/-- A container value (object or array): the only values whose properties can
be assigned. -/
def isContainer : Json → Bool
  | .obj _ => true
  | .arr _ => true
  | _ => false

/-- Whether the input starts with a decimal digit (used to delimit number
parsing in the round-trip arguments). -/
def digitHead : List Char → Bool
  | c :: _ => c.isDigit
  | [] => false

/-- Pairwise-distinct keys. -/
def nodupKeys : List (String × Json) → Bool
  | [] => true
  | (k, _) :: rest => !(rest.map Prod.fst).contains k && nodupKeys rest

mutual

/-- A fuel bound for parsing a serialized value: enough for one unit of fuel
per container-nesting step. -/
def sizeJ : Json → Nat
  | .null => 1
  | .bool _ => 1
  | .num _ => 1
  | .str _ => 1
  | .arr xs => 1 + sizeL xs
  | .obj kvs => 1 + sizeM kvs

/-- Fuel bound for an item list. -/
def sizeL : List Json → Nat
  | [] => 0
  | x :: xs => 1 + sizeJ x + sizeL xs

/-- Fuel bound for a member list. -/
def sizeM : List (String × Json) → Nat
  | [] => 0
  | (_, v) :: kvs => 1 + sizeJ v + sizeM kvs

end

mutual

/-- Well-formed JSON value: every object level has pairwise-distinct keys.
`JSON.parse` only produces such values, and the Save handler preserves
them. -/
def wfJ : Json → Bool
  | .null => true
  | .bool _ => true
  | .num _ => true
  | .str _ => true
  | .arr xs => wfL xs
  | .obj kvs => nodupKeys kvs && wfM kvs

/-- Well-formedness of every element. -/
def wfL : List Json → Bool
  | [] => true
  | x :: xs => wfJ x && wfL xs

/-- Well-formedness of every member value. -/
def wfM : List (String × Json) → Bool
  | [] => true
  | (_, v) :: kvs => wfJ v && wfM kvs

end

/-! ## Helper lemmas about the click handler's effect discipline -/

/-- Both root sub-branches produce `finalJson` once and the effect pair
`setJson; emit` on it. -/
theorem saveRoot_effs (rows : List Row) (v nv : Json) :
    (saveRoot rows v nv).2 =
      [.setJson (saveRoot rows v nv).1, .emit (saveRoot rows v nv).1] := by
  unfold saveRoot
  split <;> rfl

/-- Every success branch of the Save handler emits exactly the store write
followed by the broadcast, both carrying `finalJson`. -/
theorem saveRun_ok_effs (c : String) (rows : List Row) (path : List Seg) (t : String)
    (fj : String) (effs : List Eff) (h : saveRun c rows path t = .ok (fj, effs)) :
    effs = [.setJson fj, .emit fj] := by
  unfold saveRun at h
  split at h
  · simp at h
  · split at h
    · simp at h
    · split at h
      · injection h with h2
        have ha := congrArg Prod.fst h2
        have hb := congrArg Prod.snd h2
        rw [saveRoot_effs] at hb
        rw [ha] at hb
        exact hb.symm
      · split at h
        · simp at h
        · injection h with h2
          have ha := congrArg Prod.fst h2
          have hb := congrArg Prod.snd h2
          simp only at ha hb
          rw [ha] at hb
          exact hb.symm

/-- A failing save only sets the inline error. -/
theorem clickSave_error (st : ClickState) (rows : List Row) (path : List Seg)
    (t : String) (e : EditErr) (h : saveRun st.store rows path t = .error e) :
    clickSave st rows path t = ⟨st.store, st.broadcasts, some e⟩ := by
  simp [clickSave, h]

/-- A succeeding save stores `finalJson`, appends one broadcast of the same
string, and clears the inline error. -/
theorem clickSave_ok (st : ClickState) (rows : List Row) (path : List Seg)
    (t : String) (fj : String) (effs : List Eff)
    (h : saveRun st.store rows path t = .ok (fj, effs)) :
    clickSave st rows path t = ⟨fj, st.broadcasts ++ [fj], none⟩ := by
  have he := saveRun_ok_effs _ _ _ _ _ _ h
  subst he
  simp [clickSave, h, runEff]

/-! ## Claims -/

/-- C1: the spec (and the source's own comments at the rename special case)
require the input document `\x7b"a":\x7b"old":5\x7d\x7d`, path
`["a","old"]`, single keyed row `old`, input `\x7b"new":5\x7d` to produce
`\x7b"a":\x7b"new":5\x7d\x7d` with the old key deleted.  The code instead
reaches the rename branch with the scalar target `5`, falls into its
"fallback to replace" arm, and nests the object under the old key, producing
`\x7b"a":\x7b"old":\x7b"new":5\x7d\x7d\x7d`. -/
theorem claim_C1_code_eval :
    save "\x7b\"a\":\x7b\"old\":5\x7d\x7d"
        [{ key := some "old", value := some (.num 5) }]
        [.key "a", .key "old"] "\x7b\"new\":5\x7d" =
      .ok "\x7b\n  \"a\": \x7b\n    \"old\": \x7b\n      \"new\": 5\n    \x7d\n  \x7d\n\x7d" ∧
    ("\x7b\n  \"a\": \x7b\n    \"old\": \x7b\n      \"new\": 5\n    \x7d\n  \x7d\n\x7d" : String) ≠
      "\x7b\n  \"a\": \x7b\n    \"new\": 5\n  \x7d\n\x7d" :=
  ⟨rfl, by decide⟩

/-- C2: every Save click is atomic — either the store is updated to the new
document, exactly one broadcast of the same string is appended and the error
is cleared, or (on any error) the store and the broadcast history are
untouched and the error is reported. -/
theorem claim_C2_save_atomic (st : ClickState) (rows : List Row) (path : List Seg)
    (text : String) :
    (∃ s, save st.store rows path text = .ok s ∧
        clickSave st rows path text = ⟨s, st.broadcasts ++ [s], none⟩) ∨
    (∃ e, save st.store rows path text = .error e ∧
        clickSave st rows path text = ⟨st.store, st.broadcasts, some e⟩) := by
  cases h : saveRun st.store rows path text with
  | ok pr =>
    obtain ⟨fj, effs⟩ := pr
    exact Or.inl ⟨fj, by simp [save, h, Except.map],
      clickSave_ok st rows path text fj effs h⟩
  | error e =>
    exact Or.inr ⟨e, by simp [save, h, Except.map],
      clickSave_error st rows path text e h⟩

/-- C4 counterexample: with document `\x7b"a":1\x7d` and the unwalkable path
`["b","c","d"]` the failure is a JavaScript TypeError (reading a property of
`undefined` while walking), not the handler's explicit unresolved-path
error, refuting the claim that every unwalkable path fails with the
UnresolvedPath-kind error. -/
theorem claim_C4_counterexample :
    save "\x7b\"a\":1\x7d" [] [.key "b", .key "c", .key "d"] "5" =
      .error .typeErr ∧ EditErr.typeErr ≠ EditErr.unresolvedPath :=
  ⟨rfl, by decide⟩

/-- C5: editing the root of `\x7b"a":1,"b":2\x7d` with any fieldShape
containing a keyed row and input `\x7b"b":3\x7d` merges over the root:
result `\x7b"a":1,"b":3\x7d`, untouched keys preserved. -/
theorem claim_C5_root_merge (rows : List Row)
    (h : rows.any (fun r => keyTruthy r.key) = true) :
    save "\x7b\"a\":1,\"b\":2\x7d" rows [] "\x7b\"b\":3\x7d" =
      .ok "\x7b\n  \"a\": 1,\n  \"b\": 3\n\x7d" := by
  have hlen : decide (0 < rows.length) = true := by
    cases rows with
    | nil => simp at h
    | cons r rs => simp
  unfold save saveRun
  rw [show parseRoot "\x7b\"a\":1,\"b\":2\x7d" =
    .ok (.obj [("a", .num 1), ("b", .num 2)]) from rfl]
  have hnv : determineNewValue rows "\x7b\"b\":3\x7d" = .ok (.obj [("b", .num 3)]) := by
    unfold determineNewValue
    rw [show parseJson "\x7b\"b\":3\x7d" = some (.obj [("b", .num 3)]) from rfl]
  rw [hnv]
  show Except.map Prod.fst (.ok (saveRoot rows _ _)) = _
  unfold saveRoot
  rw [show isEditingObjectFields rows = true by
    unfold isEditingObjectFields; rw [hlen, h]; rfl]
  rfl

/-- C5 witness: the merge theorem at the concrete fieldShape
`[\x7bkey:"b", value:3\x7d]`. -/
theorem claim_C5_root_merge_witness :
    save "\x7b\"a\":1,\"b\":2\x7d" [{ key := some "b", value := some (.num 3) }] []
        "\x7b\"b\":3\x7d" = .ok "\x7b\n  \"a\": 1,\n  \"b\": 3\n\x7d" :=
  claim_C5_root_merge [{ key := some "b", value := some (.num 3) }] (by decide)

/-- C6: when the edit input does not parse as JSON, a scalar-leaf fieldShape
(single unkeyed row) takes the raw text literally as a string value — shown
in general for `determineNewValue` and on the spec's concrete example —
while every other fieldShape fails with the invalid-input error and leaves
the store and broadcast history untouched (assuming the stored document
itself parses, as the handler parses the store first). -/
theorem claim_C6_literal_fallback :
    (∀ rows text, parseJson text = none → scalarLeaf rows = true →
        determineNewValue rows text = .ok (.str text)) ∧
    save "\x7b\"a\":\"hello\"\x7d" [{ key := none, value := some (.str "hello") }]
        [.key "a"] "not json" = .ok "\x7b\n  \"a\": \"not json\"\n\x7d" ∧
    (∀ st rows path text v, parseRoot st.store = .ok v → parseJson text = none →
        scalarLeaf rows = false →
        save st.store rows path text = .error .invalidInput ∧
        clickSave st rows path text = ⟨st.store, st.broadcasts, some .invalidInput⟩) := by
  refine ⟨?_, rfl, ?_⟩
  · intro rows text hp hs
    unfold determineNewValue
    rw [hp, hs]
    rfl
  · intro st rows path text v hroot hp hs
    have hrun : saveRun st.store rows path text = .error .invalidInput := by
      unfold saveRun
      rw [hroot]
      unfold determineNewValue
      rw [hp, hs]
      rfl
    exact ⟨by simp [save, hrun, Except.map], clickSave_error st rows path text _ hrun⟩

/-- C6 witness: the general parts applied at concrete inputs — the literal
fallback at the scalar leaf, and the invalid-input failure for a keyed
fieldShape. -/
theorem claim_C6_literal_fallback_witness :
    determineNewValue [{ key := none }] "not json" = .ok (.str "not json") ∧
    save "\x7b\"a\":\"hello\"\x7d" [{ key := some "a" }] [.key "a"] "not json" =
      .error .invalidInput := by
  constructor
  · exact claim_C6_literal_fallback.1 [{ key := none }] "not json" rfl rfl
  · exact (claim_C6_literal_fallback.2.2 ⟨"\x7b\"a\":\"hello\"\x7d", [], none⟩
      [{ key := some "a" }] [.key "a"] "not json" (.obj [("a", .str "hello")])
      rfl rfl rfl).1

/-- C7: the `json:update` subscriber is suppression-correct — when the
incoming payload equals a component's last-known value that component is not
updated and no re-set occurs, and conversely any update implies the payload
differed. -/
theorem claim_C7_broadcast_suppression (st : EditorState) (detail : String) :
    (detail = st.editorValue →
      (jsonUpdateHandler st detail).1.editorValue = st.editorValue ∧
      (jsonUpdateHandler st detail).2.1 = false) ∧
    (st.monacoValue = some detail →
      (jsonUpdateHandler st detail).1.monacoValue = st.monacoValue ∧
      (jsonUpdateHandler st detail).2.2 = false) ∧
    ((jsonUpdateHandler st detail).2.1 = true → detail ≠ st.editorValue) ∧
    ((jsonUpdateHandler st detail).2.2 = true → st.monacoValue ≠ some detail) := by
  unfold jsonUpdateHandler
  by_cases he : detail.isEmpty
  · simp [he]
  · by_cases heq : st.editorValue = detail
    · cases hm : st.monacoValue with
      | none => simp [he, heq, hm]
      | some cur =>
        by_cases hcur : cur = detail <;> simp [he, heq, hm, hcur]
    · cases hm : st.monacoValue with
      | none =>
        simp [he, heq, hm]
        exact fun h => heq h.symm
      | some cur =>
        by_cases hcur : cur = detail <;> simp [he, heq, hm, hcur] <;>
          exact fun h => heq h.symm

/-- C7 witness: an incoming payload equal to both buffers produces no update
and no re-set. -/
theorem claim_C7_broadcast_suppression_witness :
    (jsonUpdateHandler ⟨"x", some "x"⟩ "x").1.editorValue = "x" ∧
    (jsonUpdateHandler ⟨"x", some "x"⟩ "x").2.1 = false ∧
    (jsonUpdateHandler ⟨"x", some "x"⟩ "x").1.monacoValue = some "x" ∧
    (jsonUpdateHandler ⟨"x", some "x"⟩ "x").2.2 = false := by
  have h := claim_C7_broadcast_suppression ⟨"x", some "x"⟩ "x"
  have h1 := h.1 rfl
  have h2 := h.2.1 rfl
  exact ⟨h1.1, h1.2, h2.1, h2.2⟩

/-- C8: in every successful save branch the effect trace is exactly the
store write followed by the broadcast, both carrying the same finalJson
string. -/
theorem claim_C8_store_before_broadcast (c : String) (rows : List Row)
    (path : List Seg) (t : String) (fj : String) (effs : List Eff)
    (h : saveRun c rows path t = .ok (fj, effs)) :
    effs = [.setJson fj, .emit fj] :=
  saveRun_ok_effs c rows path t fj effs h

/-- C8 witness: the effect-order theorem at a concrete root replace. -/
theorem claim_C8_store_before_broadcast_witness :
    ([Eff.setJson "5", Eff.emit "5"] : List Eff) = [.setJson "5", .emit "5"] :=
  claim_C8_store_before_broadcast "" [] [] "5" "5" [Eff.setJson "5", Eff.emit "5"] rfl

/-- C10 counterexample: for document `\x7b"a":1\x7d` and path `["a","c"]`
the sole segment before the last resolves to the defined value `1`, and the
final key `c` is absent from that resolved parent, yet the save fails (the
strict-mode assignment to a primitive throws a TypeError) instead of
succeeding and inserting the value. -/
theorem claim_C10_counterexample :
    walkSegs (some (Json.obj [("a", Json.num 1)])) [Seg.key "a"] =
      .ok (some (.num 1)) ∧
    save "\x7b\"a\":1\x7d" [] [.key "a", .key "c"] "5" = .error .typeErr :=
  ⟨rfl, rfl⟩

/-! ## Character and digit lemmas -/

/-- Characters are equal when their code points are. -/
theorem char_eq_of_toNat {a b : Char} (h : a.toNat = b.toNat) : a = b :=
  Char.eq_of_val_eq (UInt32.ext h)

/-- `isDigit` as a code-point interval. -/
theorem isDigit_iff (c : Char) : c.isDigit = true ↔ 48 ≤ c.toNat ∧ c.toNat ≤ 57 := by
  unfold Char.isDigit
  simp only [Bool.and_eq_true, decide_eq_true_eq]
  exact Iff.rfl

/-- Code point of a decimal digit character. -/
theorem digitChar_toNat {d : Nat} (h : d < 10) : (digitChar d).toNat = 48 + d := by
  unfold digitChar Char.ofNat
  rw [dif_pos (Or.inl (by omega : 48 + d < 0xd800))]
  rfl

/-- Digit characters are digits. -/
theorem digitChar_isDigit {d : Nat} (h : d < 10) : (digitChar d).isDigit = true := by
  rw [isDigit_iff, digitChar_toNat h]
  omega

/-- Digit characters are not whitespace. -/
theorem isWsChar_of_isDigit {c : Char} (h : c.isDigit = true) : isWsChar c = false := by
  have h1 : c ≠ ' ' := fun he => absurd (he ▸ h) (by decide)
  have h2 : c ≠ '\n' := fun he => absurd (he ▸ h) (by decide)
  have h3 : c ≠ '\t' := fun he => absurd (he ▸ h) (by decide)
  have h4 : c ≠ '\r' := fun he => absurd (he ▸ h) (by decide)
  unfold isWsChar
  simp [h1, h2, h3, h4]

/-- A digit character is none of the parser's dispatch literals. -/
theorem isDigit_ne_lit {c : Char} (h : c.isDigit = true) :
    c ≠ '\x7b' ∧ c ≠ '[' ∧ c ≠ '\"' ∧ c ≠ 't' ∧ c ≠ 'f' ∧ c ≠ 'n' ∧ c ≠ '-' :=
  ⟨fun he => absurd (he ▸ h) (by decide), fun he => absurd (he ▸ h) (by decide),
   fun he => absurd (he ▸ h) (by decide), fun he => absurd (he ▸ h) (by decide),
   fun he => absurd (he ▸ h) (by decide), fun he => absurd (he ▸ h) (by decide),
   fun he => absurd (he ▸ h) (by decide)⟩

/-- Skipping whitespace stops at a non-whitespace head. -/
theorem skipWs_not_ws {c : Char} (cs : List Char) (h : isWsChar c = false) :
    skipWs (c :: cs) = c :: cs := by
  simp only [skipWs, h]
  simp

/-- Skipping whitespace passes a whitespace head. -/
theorem skipWs_ws {c : Char} (cs : List Char) (h : isWsChar c = true) :
    skipWs (c :: cs) = skipWs cs := by
  simp only [skipWs, h]
  simp

/-- Indentation is skipped entirely. -/
theorem skipWs_indentC (n : Nat) (cs : List Char) :
    skipWs (indentC n ++ cs) = skipWs cs := by
  induction n with
  | zero => rfl
  | succ m ih =>
    show skipWs (List.replicate (m + 1) ' ' ++ cs) = skipWs cs
    rw [List.replicate_succ, List.cons_append, skipWs_ws _ (by decide)]
    exact ih

/-- Skipping whitespace is idempotent. -/
theorem skipWs_idem (cs : List Char) : skipWs (skipWs cs) = skipWs cs := by
  induction cs with
  | nil => rfl
  | cons c t ih =>
    cases hc : isWsChar c with
    | true => rw [skipWs_ws _ hc]; exact ih
    | false => rw [skipWs_not_ws _ hc, skipWs_not_ws _ hc]

/-! ## Digit-reading lemmas -/

/-- Reading digits stops immediately on a non-digit head. -/
theorem readDigits_not_digit (acc : Nat) (rest : List Char)
    (h : digitHead rest = false) : readDigits acc rest = (acc, rest) := by
  cases rest with
  | nil => rfl
  | cons c t =>
    simp only [digitHead] at h
    simp only [readDigits, h]
    simp

/-- Reading digits consumes a digit head. -/
theorem readDigits_digit (acc : Nat) {c : Char} (cs : List Char)
    (h : c.isDigit = true) :
    readDigits acc (c :: cs) = readDigits (acc * 10 + (c.toNat - 48)) cs := by
  simp only [readDigits, h]
  simp

/-- The decimal digits of `n` read back as `n` (in accumulator form). -/
theorem readDigits_natCharsAux : ∀ fuel n acc rest, n ≤ fuel →
    readDigits acc (natCharsAux fuel n ++ rest) =
      readDigits (acc * 10 ^ (natCharsAux fuel n).length + n) rest := by
  intro fuel
  induction fuel with
  | zero =>
    intro n acc rest hn
    have h0 : n = 0 := Nat.le_zero.mp hn
    subst h0
    show readDigits acc (digitChar 0 :: rest) = _
    rw [readDigits_digit _ _ (digitChar_isDigit (by omega)), digitChar_toNat (by omega)]
    have hl : (natCharsAux 0 0).length = 1 := rfl
    rw [hl]
    norm_num
  | succ f ih =>
    intro n acc rest hn
    by_cases h10 : n < 10
    · have hEq : natCharsAux (f + 1) n = [digitChar n] := by
        simp only [natCharsAux, if_pos h10]
      rw [hEq]
      show readDigits acc (digitChar n :: rest) = _
      rw [readDigits_digit _ _ (digitChar_isDigit h10), digitChar_toNat h10]
      have : 48 + n - 48 = n := by omega
      rw [this]
      norm_num
    · have hEq : natCharsAux (f + 1) n =
          natCharsAux f (n / 10) ++ [digitChar (n % 10)] := by
        simp only [natCharsAux, if_neg h10]
      have hdiv : n / 10 ≤ f := by
        have : n / 10 < n := Nat.div_lt_self (by omega) (by omega)
        omega
      rw [hEq, List.append_assoc, ih (n / 10) acc _ hdiv]
      show readDigits _ (digitChar (n % 10) :: rest) = _
      rw [readDigits_digit _ _ (digitChar_isDigit (by omega)),
        digitChar_toNat (by omega : n % 10 < 10)]
      rw [List.length_append]
      have hlen : (natCharsAux f (n / 10)).length + [digitChar (n % 10)].length =
          (natCharsAux f (n / 10)).length + 1 := by simp
      rw [hlen, pow_succ]
      have hmod := Nat.div_add_mod n 10
      have harith : (acc * 10 ^ (natCharsAux f (n / 10)).length + n / 10) * 10 +
          (48 + n % 10 - 48) = acc * (10 ^ (natCharsAux f (n / 10)).length * 10) + n := by
        ring_nf
        omega
      rw [harith]

/-- The digit list of a natural number is never empty. -/
theorem natCharsAux_ne_nil (fuel n : Nat) : natCharsAux fuel n ≠ [] := by
  cases fuel with
  | zero => simp [natCharsAux]
  | succ f =>
    simp only [natCharsAux]
    split <;> simp

/-- Every produced character is a digit (under sufficient fuel). -/
theorem natCharsAux_all_digits : ∀ fuel n, n ≤ fuel →
    ∀ c ∈ natCharsAux fuel n, c.isDigit = true := by
  intro fuel
  induction fuel with
  | zero =>
    intro n hn c hc
    have h0 : n = 0 := Nat.le_zero.mp hn
    subst h0
    simp only [natCharsAux, List.mem_singleton] at hc
    subst hc
    exact digitChar_isDigit (by omega)
  | succ f ih =>
    intro n hn c hc
    by_cases h10 : n < 10
    · simp only [natCharsAux, if_pos h10, List.mem_singleton] at hc
      subst hc
      exact digitChar_isDigit h10
    · simp only [natCharsAux, if_neg h10, List.mem_append, List.mem_singleton] at hc
      rcases hc with hc | hc
      · have hdiv : n / 10 ≤ f := by
          have : n / 10 < n := Nat.div_lt_self (by omega) (by omega)
          omega
        exact ih (n / 10) hdiv c hc
      · subst hc
        exact digitChar_isDigit (by omega)

/-! ## Parser whitespace-congruence lemmas -/

/-- `parseVal` only depends on the whitespace-skipped input. -/
theorem parseVal_skip (f : Nat) (cs cs' : List Char) (h : skipWs cs = skipWs cs') :
    parseVal f cs = parseVal f cs' := by
  cases f with
  | zero => rfl
  | succ f => simp only [parseVal]; rw [h]

/-- `parseItems` only depends on the whitespace-skipped input. -/
theorem parseItems_skip (f : Nat) (cs cs' : List Char) (h : skipWs cs = skipWs cs') :
    parseItems f cs = parseItems f cs' := by
  cases f with
  | zero => rfl
  | succ f => simp only [parseItems]; rw [parseVal_skip f cs cs' h]

/-- `parseMembers` only depends on the whitespace-skipped input. -/
theorem parseMembers_skip (f : Nat) (cs cs' : List Char) (h : skipWs cs = skipWs cs') :
    parseMembers f cs = parseMembers f cs' := by
  cases f with
  | zero => rfl
  | succ f => simp only [parseMembers]; rw [h]


/-! ## String escaping round-trip -/

/-- Rebuilding a character from its own code point. -/
theorem ofNatAux_self (c : Char) (h : Nat.isValidChar c.toNat) :
    Char.ofNatAux c.toNat h = c :=
  char_eq_of_toNat rfl

/-- `Char.ofNat` on a small code point rebuilds the character. -/
theorem ofNat_self (c : Char) (h : c.toNat < 0xd800) : Char.ofNat c.toNat = c := by
  unfold Char.ofNat
  rw [dif_pos (Or.inl h)]
  exact ofNatAux_self c (Or.inl h)

/-- Hex digits produced by the serializer decode to their value. -/
theorem hexVal_hexDigitChar {h : Nat} (hh : h < 16) :
    hexVal (hexDigitChar h) = some h := by
  interval_cases h <;> decide

/-- A code point below 0xd800 rebuilds its character through `Char.ofNat`,
stated with a flexible left-hand side. -/
theorem ofNat_eq_of (n : Nat) (c : Char) (h : n = c.toNat) (h2 : c.toNat < 0xd800) :
    Char.ofNat n = c := by
  rw [h]
  exact ofNat_self c h2

/-- Decoding the serializer's unicode escape payload. -/
theorem decodeEsc_unicode (c : Char) (h8 : c.toNat < 32) (rest : List Char) :
    decodeEsc ('u' :: '0' :: '0' :: hexDigitChar (c.toNat / 16) ::
      hexDigitChar (c.toNat % 16) :: rest) = some (c, rest) := by
  simp only [decodeEsc, show escShort 'u' = none from rfl,
    show hexVal '0' = some 0 from rfl,
    hexVal_hexDigitChar (show c.toNat / 16 < 16 by omega),
    hexVal_hexDigitChar (show c.toNat % 16 < 16 by omega), if_true]
  split
  · rw [ofNat_eq_of _ c (by omega) (by omega)]
  · omega

/-- Decoding one escaped character costs one unit of fuel. -/
theorem parseStrBody_escChar (fuel : Nat) (c : Char) (rest : List Char) :
    parseStrBody (fuel + 1) (escChar c ++ rest) =
      (parseStrBody fuel rest).map (fun p => (c :: p.1, p.2)) := by
  by_cases h1 : c = '\"'
  · subst h1; simp [parseStrBody, decodeEsc, escShort, escChar]
  by_cases h2 : c = '\\'
  · subst h2; simp [parseStrBody, decodeEsc, escShort, escChar]
  by_cases h3 : c = '\n'
  · subst h3; simp [parseStrBody, decodeEsc, escShort, escChar]
  by_cases h4 : c = '\t'
  · subst h4; simp [parseStrBody, decodeEsc, escShort, escChar]
  by_cases h5 : c = '\r'
  · subst h5; simp [parseStrBody, decodeEsc, escShort, escChar]
  by_cases h6 : c = '\x08'
  · subst h6; simp [parseStrBody, decodeEsc, escShort, escChar]
  by_cases h7 : c = '\x0c'
  · subst h7; simp [parseStrBody, decodeEsc, escShort, escChar]
  by_cases h8 : c.toNat < 32
  · have hesc : escChar c = '\\' :: 'u' :: '0' :: '0' ::
        hexDigitChar (c.toNat / 16) :: [hexDigitChar (c.toNat % 16)] := by
      unfold escChar
      rw [if_neg h1, if_neg h2, if_neg h3, if_neg h4, if_neg h5, if_neg h6,
        if_neg h7, if_pos h8]
    rw [hesc]
    simp only [parseStrBody, List.cons_append, List.nil_append,
      decodeEsc_unicode c h8 rest]
    simp
  · have hesc : escChar c = [c] := by
      unfold escChar
      rw [if_neg h1, if_neg h2, if_neg h3, if_neg h4, if_neg h5, if_neg h6,
        if_neg h7, if_neg h8]
    rw [hesc]
    show parseStrBody (fuel + 1) (c :: rest) = _
    simp only [parseStrBody]
    rw [if_neg h1, if_neg h2, if_neg h8]

/-- Decoding a whole escaped string body up to the closing quote. -/
theorem parseStrBody_escChars : ∀ (fuel : Nat) (l rest : List Char),
    l.length < fuel →
    parseStrBody fuel (escChars l ++ '\"' :: rest) = some (l, rest) := by
  intro fuel
  induction fuel with
  | zero => intro l rest h; omega
  | succ f ih =>
    intro l rest h
    cases l with
    | nil =>
      simp only [escChars, List.nil_append]
      simp [parseStrBody]
    | cons c t =>
      show parseStrBody (f + 1) ((escChar c ++ escChars t) ++ '\"' :: rest) = _
      rw [List.append_assoc, parseStrBody_escChar,
        ih t rest (by simpa using Nat.lt_of_succ_lt_succ h)]
      rfl

/-- Escaping does not shorten a string. -/
theorem escChars_length (l : List Char) : l.length ≤ (escChars l).length := by
  induction l with
  | nil => simp [escChars]
  | cons c t ih =>
    show t.length + 1 ≤ (escChar c ++ escChars t).length
    rw [List.length_append]
    have hc : 1 ≤ (escChar c).length := by
      unfold escChar
      split
      · simp
      · split
        · simp
        · split
          · simp
          · split
            · simp
            · split
              · simp
              · split
                · simp
                · split
                  · simp
                  · split <;> simp
    omega

/-- Parsing a serialized string literal (with the input-length fuel the
parser call sites use). -/
theorem parseStrBody_quote (s : String) (rest : List Char) :
    parseStrBody (escChars s.data ++ '\"' :: rest).length
      (escChars s.data ++ '\"' :: rest) = some (s.data, rest) := by
  apply parseStrBody_escChars
  rw [List.length_append]
  have := escChars_length s.data
  simp only [List.length_cons]
  omega

/-! ## Number round-trip and serializer head shape -/

/-- Reading back the decimal digits of `m`. -/
theorem readDigits_natChars (m : Nat) (rest : List Char)
    (h : digitHead rest = false) :
    readDigits 0 (natChars m ++ rest) = (m, rest) := by
  unfold natChars
  rw [readDigits_natCharsAux m m 0 rest (le_refl m), readDigits_not_digit _ _ h]
  simp

/-- The digits of `m` form a nonempty list with a digit head. -/
theorem natChars_cons (m : Nat) : ∃ c t, natChars m = c :: t ∧ c.isDigit = true := by
  cases he : natChars m with
  | nil => exact absurd he (natCharsAux_ne_nil m m)
  | cons c t =>
    refine ⟨c, t, rfl, ?_⟩
    apply natCharsAux_all_digits m m (le_refl m)
    unfold natChars at he
    rw [he]
    exact List.mem_cons_self c t

/-- Every serialized value starts with a character that is not whitespace and
not one of the structural delimiters. -/
theorem serVal_head (ind : Nat) (v : Json) :
    ∃ c t, serVal ind v = c :: t ∧ isWsChar c = false ∧
      c ≠ ']' ∧ c ≠ '\x7d' ∧ c ≠ ',' ∧ c ≠ ':' := by
  cases v with
  | null => exact ⟨'n', _, rfl, by decide, by decide, by decide, by decide, by decide⟩
  | bool b =>
    cases b with
    | true => exact ⟨'t', _, rfl, by decide, by decide, by decide, by decide, by decide⟩
    | false => exact ⟨'f', _, rfl, by decide, by decide, by decide, by decide, by decide⟩
  | num n =>
    show ∃ c t, intChars n = c :: t ∧ _
    unfold intChars
    by_cases hn : n < 0
    · rw [if_pos hn]
      exact ⟨'-', _, rfl, by decide, by decide, by decide, by decide, by decide⟩
    · rw [if_neg hn]
      obtain ⟨c, t, hct, hdig⟩ := natChars_cons n.toNat
      exact ⟨c, t, hct, isWsChar_of_isDigit hdig,
        fun he => absurd (he ▸ hdig) (by decide),
        fun he => absurd (he ▸ hdig) (by decide),
        fun he => absurd (he ▸ hdig) (by decide),
        fun he => absurd (he ▸ hdig) (by decide)⟩
  | str s =>
    exact ⟨'\"', _, rfl, by decide, by decide, by decide, by decide, by decide⟩
  | arr xs =>
    cases xs with
    | nil => exact ⟨'[', _, rfl, by decide, by decide, by decide, by decide, by decide⟩
    | cons x xs =>
      exact ⟨'[', _, rfl, by decide, by decide, by decide, by decide, by decide⟩
  | obj kvs =>
    cases kvs with
    | nil =>
      exact ⟨'\x7b', _, rfl, by decide, by decide, by decide, by decide, by decide⟩
    | cons kv kvs =>
      exact ⟨'\x7b', _, rfl, by decide, by decide, by decide, by decide, by decide⟩

/-! ## Association-list lemmas for object semantics -/

/-- `List.contains` agrees with membership for strings. -/
theorem strContains_iff {l : List String} {k : String} :
    l.contains k = true ↔ k ∈ l := by
  simp [List.contains, List.elem_iff]

/-- Looking up the key just written. -/
theorem lookupKey_setKey_self (l : List (String × Json)) (k : String) (v : Json) :
    lookupKey (setKey l k v) k = some v := by
  induction l with
  | nil => simp [setKey, lookupKey]
  | cons kv rest ih =>
    obtain ⟨k', v'⟩ := kv
    by_cases h : k' = k
    · subst h
      simp [setKey, lookupKey]
    · simp [setKey, lookupKey, h, ih]

/-- Writing one key leaves other lookups unchanged. -/
theorem lookupKey_setKey_ne (l : List (String × Json)) {k k' : String} (v : Json)
    (h : k' ≠ k) : lookupKey (setKey l k v) k' = lookupKey l k' := by
  have hkk : k ≠ k' := Ne.symm h
  induction l with
  | nil => simp [setKey, lookupKey, hkk]
  | cons kv rest ih =>
    obtain ⟨k0, v0⟩ := kv
    by_cases h0 : k0 = k
    · subst h0
      simp [setKey, lookupKey, hkk]
    · simp only [setKey, if_neg h0, lookupKey]
      by_cases h1 : k0 = k'
      · simp [h1]
      · simp [h1, ih]

/-- Re-writing the same key and value is absorbed. -/
theorem setKey_setKey_same (l : List (String × Json)) (k : String) (v w : Json) :
    setKey (setKey l k v) k w = setKey l k w := by
  induction l with
  | nil => simp [setKey]
  | cons kv rest ih =>
    obtain ⟨k0, v0⟩ := kv
    by_cases h0 : k0 = k
    · subst h0
      simp [setKey]
    · simp [setKey, h0, ih]

/-- Writing a value already present changes nothing. -/
theorem setKey_of_lookup {l : List (String × Json)} {k : String} {v : Json}
    (h : lookupKey l k = some v) : setKey l k v = l := by
  induction l with
  | nil => simp [lookupKey] at h
  | cons kv rest ih =>
    obtain ⟨k0, v0⟩ := kv
    by_cases h0 : k0 = k
    · subst h0
      have hv : v0 = v := by simpa [lookupKey] using h
      subst hv
      simp [setKey]
    · simp only [lookupKey, if_neg h0] at h
      simp [setKey, h0, ih h]

/-- Writing an absent key appends it. -/
theorem setKey_append_of_not_mem {l : List (String × Json)} {k : String} (v : Json)
    (h : k ∉ l.map Prod.fst) : setKey l k v = l ++ [(k, v)] := by
  induction l with
  | nil => simp [setKey]
  | cons kv rest ih =>
    obtain ⟨k0, v0⟩ := kv
    simp only [List.map_cons, List.mem_cons, not_or] at h
    have h0 : k0 ≠ k := fun he => h.1 he.symm
    simp [setKey, h0, ih h.2]

/-- Lookup of an absent key fails. -/
theorem lookupKey_eq_none {l : List (String × Json)} {k : String}
    (h : k ∉ l.map Prod.fst) : lookupKey l k = none := by
  induction l with
  | nil => rfl
  | cons kv rest ih =>
    obtain ⟨k0, v0⟩ := kv
    simp only [List.map_cons, List.mem_cons, not_or] at h
    have h0 : k0 ≠ k := fun he => h.1 he.symm
    simp [lookupKey, h0, ih h.2]

/-- A member of a duplicate-free list is what lookup returns. -/
theorem lookupKey_of_mem_nodup {l : List (String × Json)} {k : String} {v : Json}
    (hmem : (k, v) ∈ l) (hnd : nodupKeys l = true) : lookupKey l k = some v := by
  induction l with
  | nil => simp at hmem
  | cons kv rest ih =>
    obtain ⟨k0, v0⟩ := kv
    simp only [nodupKeys, Bool.and_eq_true, Bool.not_eq_true'] at hnd
    rcases List.mem_cons.mp hmem with he | hmem'
    · have hk : k = k0 := congrArg Prod.fst he
      have hv : v = v0 := congrArg Prod.snd he
      subst hk
      subst hv
      simp [lookupKey]
    · have hk : k0 ≠ k := by
        intro he0
        subst he0
        have : k0 ∈ rest.map Prod.fst :=
          List.mem_map.mpr ⟨(k0, v), hmem', rfl⟩
        rw [← strContains_iff] at this
        rw [this] at hnd
        exact absurd hnd.1 (by simp)
      simp [lookupKey, hk, ih hmem' hnd.2]

/-- The keys after a write are the old keys, plus possibly `k`. -/
theorem mem_keys_setKey {l : List (String × Json)} {k k' : String} {v : Json}
    (h : k' ∈ (setKey l k v).map Prod.fst) : k' ∈ l.map Prod.fst ∨ k' = k := by
  induction l with
  | nil =>
    simp only [setKey, List.map_cons, List.map_nil, List.mem_singleton] at h
    exact Or.inr h
  | cons kv rest ih =>
    obtain ⟨k0, v0⟩ := kv
    by_cases h0 : k0 = k
    · rw [show setKey ((k0, v0) :: rest) k v = (k, v) :: rest from by
        simp [setKey, h0]] at h
      simp only [List.map_cons, List.mem_cons] at h
      rcases h with h | h
      · exact Or.inr h
      · exact Or.inl (by rw [List.map_cons]; exact List.mem_cons.mpr (Or.inr h))
    · rw [show setKey ((k0, v0) :: rest) k v = (k0, v0) :: setKey rest k v from by
        simp [setKey, h0]] at h
      simp only [List.map_cons, List.mem_cons] at h
      rcases h with h | h
      · exact Or.inl (by simp [h])
      · rcases ih h with h' | h'
        · exact Or.inl (by simp [h'])
        · exact Or.inr h'

/-- Writing preserves duplicate-freeness of keys. -/
theorem nodupKeys_setKey {l : List (String × Json)} (k : String) (v : Json)
    (h : nodupKeys l = true) : nodupKeys (setKey l k v) = true := by
  induction l with
  | nil => simp [setKey, nodupKeys, List.contains]
  | cons kv rest ih =>
    obtain ⟨k0, v0⟩ := kv
    simp only [nodupKeys, Bool.and_eq_true, Bool.not_eq_true'] at h
    by_cases h0 : k0 = k
    · rw [show setKey ((k0, v0) :: rest) k v = (k, v) :: rest from by
        simp [setKey, h0]]
      simp only [nodupKeys, Bool.and_eq_true, Bool.not_eq_true']
      rw [← h0]
      exact ⟨h.1, h.2⟩
    · rw [show setKey ((k0, v0) :: rest) k v = (k0, v0) :: setKey rest k v from by
        simp [setKey, h0]]
      simp only [nodupKeys, Bool.and_eq_true, Bool.not_eq_true']
      refine ⟨?_, ih h.2⟩
      cases hb : ((setKey rest k v).map Prod.fst).contains k0 with
      | false => rfl
      | true =>
        exfalso
        rcases mem_keys_setKey (strContains_iff.mp hb) with hmem | he
        · have hmt := strContains_iff.mpr hmem
          rw [h.1] at hmt
          exact absurd hmt (by simp)
        · exact h0 he

/-- `buildObj` of a duplicate-free member list is the list itself (general
accumulator form). -/
theorem foldl_setKey_of_disjoint :
    ∀ (kvs acc : List (String × Json)), nodupKeys kvs = true →
    (∀ k, k ∈ kvs.map Prod.fst → k ∉ acc.map Prod.fst) →
    kvs.foldl (fun a kv => setKey a kv.1 kv.2) acc = acc ++ kvs := by
  intro kvs
  induction kvs with
  | nil => intro acc _ _; simp
  | cons kv rest ih =>
    intro acc hnd hdisj
    obtain ⟨k, v⟩ := kv
    simp only [nodupKeys, Bool.and_eq_true, Bool.not_eq_true'] at hnd
    show rest.foldl (fun a kv => setKey a kv.1 kv.2) (setKey acc k v) = acc ++ (k, v) :: rest
    rw [setKey_append_of_not_mem v (hdisj k (by simp))]
    rw [ih (acc ++ [(k, v)]) hnd.2 ?_]
    · simp
    · intro k' hk'
      simp only [List.map_append, List.mem_append, not_or]
      refine ⟨hdisj k' (by simp [hk']), ?_⟩
      simp only [List.map_cons, List.mem_singleton]
      intro he
      have he' : k' = k := by simpa using he
      subst he'
      rw [← strContains_iff] at hk'
      rw [hk'] at hnd
      exact absurd hnd.1 (by simp)

/-- `buildObj` keeps a duplicate-free member list unchanged. -/
theorem buildObj_nodup {kvs : List (String × Json)} (h : nodupKeys kvs = true) :
    buildObj kvs = kvs := by
  unfold buildObj
  rw [foldl_setKey_of_disjoint kvs [] h (by intro k _; simp)]
  simp

theorem sizeJ_pos (v : Json) : 1 ≤ sizeJ v := by
  cases v <;> simp [sizeJ]

theorem sizeL_pos {xs : List Json} (h : xs ≠ []) : 1 ≤ sizeL xs := by
  cases xs with
  | nil => exact absurd rfl h
  | cons x t => simp [sizeL]; omega

theorem sizeM_pos {kvs : List (String × Json)} (h : kvs ≠ []) : 1 ≤ sizeM kvs := by
  cases kvs with
  | nil => exact absurd rfl h
  | cons kv t => obtain ⟨k, v⟩ := kv; simp [sizeM]; omega

theorem skipWs_serItems_head (ind : Nat) (x : Json) (xs : List Json)
    (REST : List Char) :
    ∃ c t2, skipWs (serItems ind (x :: xs) ++ REST) = c :: t2 ∧ c ≠ ']' := by
  obtain ⟨c, t, hct, hnws, hne1, hne2, hne3, hne4⟩ := serVal_head ind x
  cases xs with
  | nil =>
    refine ⟨c, t ++ REST, ?_, hne1⟩
    show skipWs ((indentC ind ++ serVal ind x) ++ REST) = c :: (t ++ REST)
    rw [List.append_assoc, skipWs_indentC, hct]
    rw [List.cons_append, skipWs_not_ws _ hnws]
  | cons y ys =>
    refine ⟨c, t ++ (',' :: '\n' :: serItems ind (y :: ys) ++ REST), ?_, hne1⟩
    show skipWs ((indentC ind ++ serVal ind x ++ ',' :: '\n' :: serItems ind (y :: ys))
      ++ REST) = _
    rw [List.append_assoc, List.append_assoc, skipWs_indentC, hct]
    rw [List.cons_append, skipWs_not_ws _ hnws]

theorem skipWs_serMembers_head (ind : Nat) (kv : String × Json)
    (kvs : List (String × Json)) (REST : List Char) :
    ∃ z, skipWs (serMembers ind (kv :: kvs) ++ REST) = '\"' :: z := by
  obtain ⟨k, v⟩ := kv
  cases kvs with
  | nil =>
    have h1 : serMembers ind [(k, v)] ++ REST =
        indentC ind ++ ('\"' :: ((escChars k.data ++ ['\"']) ++
          ((':' :: ' ' :: serVal ind v) ++ REST))) := by
      simp [serMembers, quoteStr]
    rw [h1, skipWs_indentC, skipWs_not_ws _ (by decide)]
    exact ⟨_, rfl⟩
  | cons kv2 kvs2 =>
    have h1 : serMembers ind ((k, v) :: kv2 :: kvs2) ++ REST =
        indentC ind ++ ('\"' :: ((escChars k.data ++ ['\"']) ++
          ((':' :: ' ' :: serVal ind v ++
            ',' :: '\n' :: serMembers ind (kv2 :: kvs2)) ++ REST))) := by
      simp [serMembers, quoteStr]
    rw [h1, skipWs_indentC, skipWs_not_ws _ (by decide)]
    exact ⟨_, rfl⟩

set_option maxHeartbeats 1000000 in
theorem parse_ser : ∀ fuel : Nat,
    (∀ ind v rest, sizeJ v ≤ fuel → wfJ v = true → digitHead rest = false →
      parseVal fuel (serVal ind v ++ rest) = some (v, rest)) ∧
    (∀ ind xs rest, sizeL xs ≤ fuel → wfL xs = true → xs ≠ [] →
      digitHead rest = false → (skipWs rest).head? ≠ some ',' →
      parseItems fuel (serItems ind xs ++ rest) = some (xs, rest)) ∧
    (∀ ind kvs rest, sizeM kvs ≤ fuel → wfM kvs = true → kvs ≠ [] →
      digitHead rest = false → (skipWs rest).head? ≠ some ',' →
      parseMembers fuel (serMembers ind kvs ++ rest) = some (kvs, rest)) := by
  intro fuel
  induction fuel with
  | zero =>
    refine ⟨?_, ?_, ?_⟩
    · intro ind v rest hsz _ _
      exact absurd hsz (by have := sizeJ_pos v; omega)
    · intro ind xs rest hsz _ hne _ _
      exact absurd hsz (by have := sizeL_pos hne; omega)
    · intro ind kvs rest hsz _ hne _ _
      exact absurd hsz (by have := sizeM_pos hne; omega)
  | succ f ih =>
    obtain ⟨ihV, ihI, ihM⟩ := ih
    refine ⟨?_, ?_, ?_⟩
    · -- parseVal
      intro ind v rest hsz hwf hdg
      cases v with
      | null =>
        show parseVal (f + 1) (['n', 'u', 'l', 'l'] ++ rest) = _
        simp only [List.cons_append, List.nil_append, parseVal]
        rw [skipWs_not_ws _ (by decide)]
        simp
      | bool b =>
        cases b with
        | true =>
          show parseVal (f + 1) (['t', 'r', 'u', 'e'] ++ rest) = _
          simp only [List.cons_append, List.nil_append, parseVal]
          rw [skipWs_not_ws _ (by decide)]
          simp
        | false =>
          show parseVal (f + 1) (['f', 'a', 'l', 's', 'e'] ++ rest) = _
          simp only [List.cons_append, List.nil_append, parseVal]
          rw [skipWs_not_ws _ (by decide)]
          simp
      | num n =>
        show parseVal (f + 1) (intChars n ++ rest) = _
        unfold intChars
        by_cases hn : n < 0
        · rw [if_pos hn]
          obtain ⟨c, t, hct, hdig⟩ := natChars_cons n.natAbs
          simp only [List.cons_append, parseVal]
          rw [skipWs_not_ws _ (by decide)]
          simp only [show (('-' : Char) = '\x7b') = False by simp,
            show (('-' : Char) = '[') = False by simp,
            show (('-' : Char) = '\"') = False by simp,
            show (('-' : Char) = 't') = False by simp,
            show (('-' : Char) = 'f') = False by simp,
            show (('-' : Char) = 'n') = False by simp, reduceIte]
          rw [hct, List.cons_append]
          simp only [hdig, if_true, reduceIte]
          rw [← List.cons_append, ← hct, readDigits_natChars _ _ hdg]
          have : (-(n.natAbs : Int)) = n := by omega
          rw [this]
        · rw [if_neg hn]
          obtain ⟨c, t, hct, hdig⟩ := natChars_cons n.toNat
          rw [hct, List.cons_append]
          simp only [parseVal]
          rw [skipWs_not_ws _ (isWsChar_of_isDigit hdig)]
          obtain ⟨g1, g2, g3, g4, g5, g6, g7⟩ := isDigit_ne_lit hdig
          simp only [g1, g2, g3, g4, g5, g6, g7, hdig, reduceIte, if_true, if_false]
          rw [← List.cons_append, ← hct, readDigits_natChars _ _ hdg]
          have : ((n.toNat : Nat) : Int) = n := by omega
          rw [this]
      | str s =>
        show parseVal (f + 1) (quoteStr s ++ rest) = _
        unfold quoteStr
        simp only [List.cons_append, List.append_assoc, List.singleton_append, parseVal]
        rw [skipWs_not_ws _ (by decide)]
        simp only [show (('\"' : Char) = '\x7b') = False by simp, if_false,
          show (('\"' : Char) = '[') = False by simp, reduceIte, List.nil_append]
        rw [parseStrBody_quote s rest]
        rfl
      | arr xs =>
        cases xs with
        | nil =>
          show parseVal (f + 1) (['[', ']'] ++ rest) = _
          simp only [List.cons_append, List.nil_append, parseVal]
          rw [skipWs_not_ws _ (by decide)]
          simp [skipWs_not_ws _ (by decide : isWsChar ']' = false)]
        | cons x xs =>
          show parseVal (f + 1)
            (('[' :: '\n' :: serItems (ind + 2) (x :: xs) ++
              '\n' :: indentC ind ++ [']']) ++ rest) = _
          simp only [List.cons_append, List.append_assoc, List.singleton_append,
            List.nil_append, parseVal]
          rw [skipWs_not_ws _ (by decide)]
          simp only [show (('[' : Char) = '\x7b') = False by simp, reduceIte]
          rw [skipWs_ws _ (by decide)]
          obtain ⟨c0, t2, hsk, hc0⟩ := skipWs_serItems_head (ind + 2) x xs
            ('\n' :: (indentC ind ++ ']' :: rest))
          rw [hsk]
          have hpi : parseItems f (c0 :: t2) =
              some (x :: xs, '\n' :: (indentC ind ++ ']' :: rest)) := by
            rw [← hsk, parseItems_skip f _
              (serItems (ind + 2) (x :: xs) ++ ('\n' :: (indentC ind ++ ']' :: rest)))
              (by rw [skipWs_idem])]
            apply ihI
            · have : sizeJ (.arr (x :: xs)) = 1 + sizeL (x :: xs) := rfl
              rw [this] at hsz
              omega
            · exact hwf
            · simp
            · simp [digitHead]
            · rw [skipWs_ws _ (by decide), skipWs_indentC,
                skipWs_not_ws _ (by decide)]
              simp
          split
          · rename_i r2 heq
            rw [heq] at hsk
            exact absurd (by exact (List.cons.injEq .. ▸ heq).1) hc0
          · have hREST : skipWs ('\n' :: (indentC ind ++ ']' :: rest)) = ']' :: rest := by
              rw [skipWs_ws _ (by decide), skipWs_indentC, skipWs_not_ws _ (by decide)]
            rw [hpi]
            simp only [hREST]
      | obj kvs =>
        cases kvs with
        | nil =>
          show parseVal (f + 1) (['\x7b', '\x7d'] ++ rest) = _
          simp only [List.cons_append, List.nil_append, parseVal]
          rw [skipWs_not_ws _ (by decide)]
          simp [skipWs_not_ws _ (by decide : isWsChar '\x7d' = false)]
        | cons kv kvs =>
          have hnodup : nodupKeys (kv :: kvs) = true := by
            have := hwf
            simp only [wfJ, Bool.and_eq_true] at this
            exact this.1
          show parseVal (f + 1)
            (('\x7b' :: '\n' :: serMembers (ind + 2) (kv :: kvs) ++
              '\n' :: indentC ind ++ ['\x7d']) ++ rest) = _
          simp only [List.cons_append, List.append_assoc, List.singleton_append,
            List.nil_append, parseVal]
          rw [skipWs_not_ws _ (by decide)]
          simp only [reduceIte]
          rw [skipWs_ws _ (by decide)]
          obtain ⟨z, hsk⟩ := skipWs_serMembers_head (ind + 2) kv kvs
            ('\n' :: (indentC ind ++ '\x7d' :: rest))
          rw [hsk]
          have hpm : parseMembers f ('\"' :: z) =
              some (kv :: kvs, '\n' :: (indentC ind ++ '\x7d' :: rest)) := by
            rw [← hsk, parseMembers_skip f _
              (serMembers (ind + 2) (kv :: kvs) ++
                ('\n' :: (indentC ind ++ '\x7d' :: rest)))
              (by rw [skipWs_idem])]
            apply ihM
            · have : sizeJ (.obj (kv :: kvs)) = 1 + sizeM (kv :: kvs) := rfl
              rw [this] at hsz
              omega
            · have := hwf
              simp only [wfJ, Bool.and_eq_true] at this
              exact this.2
            · simp
            · simp [digitHead]
            · rw [skipWs_ws _ (by decide), skipWs_indentC,
                skipWs_not_ws _ (by decide)]
              simp
          split
          · rename_i r2 heq
            exact absurd (List.cons.injEq .. ▸ heq).1 (by decide)
          · have hREST : skipWs ('\n' :: (indentC ind ++ '\x7d' :: rest)) =
                '\x7d' :: rest := by
              rw [skipWs_ws _ (by decide), skipWs_indentC, skipWs_not_ws _ (by decide)]
            rw [hpm]
            simp only [hREST]
            rw [buildObj_nodup hnodup]
    · -- parseItems
      intro ind xs rest hsz hwf hne hdg hnc
      cases xs with
      | nil => exact absurd rfl hne
      | cons x xs =>
        have hs : sizeL (x :: xs) = 1 + sizeJ x + sizeL xs := rfl
        rw [hs] at hsz
        simp only [wfL, Bool.and_eq_true] at hwf
        cases xs with
        | nil =>
          show parseItems (f + 1) ((indentC ind ++ serVal ind x) ++ rest) = _
          simp only [parseItems, List.append_assoc]
          rw [parseVal_skip f _ (serVal ind x ++ rest) (by rw [skipWs_indentC])]
          simp only [ihV ind x rest (by simp [sizeL] at hsz; omega) hwf.1 hdg]
          split
          · rename_i r5 heq
            exact absurd (by rw [heq]; rfl) hnc
          · rfl
        | cons y ys =>
          show parseItems (f + 1)
            ((indentC ind ++ serVal ind x ++ ',' :: '\n' :: serItems ind (y :: ys))
              ++ rest) = _
          simp only [parseItems, List.append_assoc, List.cons_append]
          rw [parseVal_skip f _
            (serVal ind x ++ (',' :: '\n' :: (serItems ind (y :: ys) ++ rest)))
            (by rw [skipWs_indentC])]
          simp only [ihV ind x (',' :: '\n' :: (serItems ind (y :: ys) ++ rest))
            (by omega) hwf.1 (by simp [digitHead])]
          have hsw : skipWs (',' :: '\n' :: (serItems ind (y :: ys) ++ rest)) =
              ',' :: '\n' :: (serItems ind (y :: ys) ++ rest) :=
            skipWs_not_ws _ (by decide)
          simp only [hsw]
          rw [parseItems_skip f _ (serItems ind (y :: ys) ++ rest)
            (by rw [skipWs_ws _ (by decide)])]
          simp only [ihI ind (y :: ys) rest (by omega) hwf.2 (by simp) hdg hnc]
    · -- parseMembers
      intro ind kvs rest hsz hwf hne hdg hnc
      cases kvs with
      | nil => exact absurd rfl hne
      | cons kv kvs =>
        obtain ⟨k, v⟩ := kv
        have hs : sizeM ((k, v) :: kvs) = 1 + sizeJ v + sizeM kvs := rfl
        rw [hs] at hsz
        simp only [wfM, Bool.and_eq_true] at hwf
        cases kvs with
        | nil =>
          have hsw : skipWs (serMembers ind [(k, v)] ++ rest) =
              '\"' :: (escChars k.data ++ '\"' :: (':' :: (' ' ::
                (serVal ind v ++ rest)))) := by
            have h1 : serMembers ind [(k, v)] ++ rest =
                indentC ind ++ ('\"' :: (escChars k.data ++ '\"' :: (':' :: (' ' ::
                  (serVal ind v ++ rest))))) := by
              simp [serMembers, quoteStr]
            rw [h1, skipWs_indentC, skipWs_not_ws _ (by decide)]
          show parseMembers (f + 1) (serMembers ind [(k, v)] ++ rest) = _
          simp only [parseMembers]
          rw [hsw]
          simp only [parseStrBody_quote k (':' :: (' ' :: (serVal ind v ++ rest)))]
          have hsw2 : skipWs (':' :: (' ' :: (serVal ind v ++ rest))) =
              ':' :: (' ' :: (serVal ind v ++ rest)) := skipWs_not_ws _ (by decide)
          simp only [hsw2]
          rw [parseVal_skip f _ (serVal ind v ++ rest)
            (by rw [skipWs_ws _ (by decide)])]
          simp only [ihV ind v rest (by simp [sizeM] at hsz; omega) hwf.1 hdg]
          split
          · rename_i r5 heq
            exact absurd (by rw [heq]; rfl) hnc
          · rfl
        | cons kv2 kvs2 =>
          have hsw : skipWs (serMembers ind ((k, v) :: kv2 :: kvs2) ++ rest) =
              '\"' :: (escChars k.data ++ '\"' :: (':' :: (' ' ::
                (serVal ind v ++ (',' :: '\n' ::
                  (serMembers ind (kv2 :: kvs2) ++ rest)))))) := by
            have h1 : serMembers ind ((k, v) :: kv2 :: kvs2) ++ rest =
                indentC ind ++ ('\"' :: (escChars k.data ++ '\"' :: (':' :: (' ' ::
                  (serVal ind v ++ (',' :: '\n' ::
                    (serMembers ind (kv2 :: kvs2) ++ rest))))))) := by
              simp [serMembers, quoteStr]
            rw [h1, skipWs_indentC, skipWs_not_ws _ (by decide)]
          show parseMembers (f + 1) (serMembers ind ((k, v) :: kv2 :: kvs2) ++ rest) = _
          simp only [parseMembers]
          rw [hsw]
          simp only [parseStrBody_quote k (':' :: (' ' :: (serVal ind v ++
            (',' :: '\n' :: (serMembers ind (kv2 :: kvs2) ++ rest)))))]
          have hsw2 : skipWs (':' :: (' ' :: (serVal ind v ++ (',' :: '\n' ::
              (serMembers ind (kv2 :: kvs2) ++ rest))))) =
              ':' :: (' ' :: (serVal ind v ++ (',' :: '\n' ::
                (serMembers ind (kv2 :: kvs2) ++ rest)))) :=
            skipWs_not_ws _ (by decide)
          simp only [hsw2]
          rw [parseVal_skip f _ (serVal ind v ++ (',' :: '\n' ::
            (serMembers ind (kv2 :: kvs2) ++ rest)))
            (by rw [skipWs_ws _ (by decide)])]
          simp only [ihV ind v (',' :: '\n' :: (serMembers ind (kv2 :: kvs2) ++ rest))
            (by omega) hwf.1 (by simp [digitHead])]
          have hsw3 : skipWs (',' :: '\n' :: (serMembers ind (kv2 :: kvs2) ++ rest)) =
              ',' :: '\n' :: (serMembers ind (kv2 :: kvs2) ++ rest) :=
            skipWs_not_ws _ (by decide)
          simp only [hsw3]
          rw [parseMembers_skip f _ (serMembers ind (kv2 :: kvs2) ++ rest)
            (by rw [skipWs_ws _ (by decide)])]
          simp only [ihM ind (kv2 :: kvs2) rest (by omega) hwf.2 (by simp) hdg hnc]

/-- Serialized length dominates the parsing fuel measure. -/
theorem ser_length : ∀ n : Nat,
    (∀ v ind, sizeJ v ≤ n → sizeJ v ≤ (serVal ind v).length) ∧
    (∀ xs ind, sizeL xs ≤ n → sizeL xs ≤ (serItems ind xs).length + 3) ∧
    (∀ kvs ind, sizeM kvs ≤ n → sizeM kvs ≤ (serMembers ind kvs).length + 3) := by
  intro n
  induction n with
  | zero =>
    refine ⟨?_, ?_, ?_⟩
    · intro v ind hsz
      exact absurd hsz (by have := sizeJ_pos v; omega)
    · intro xs ind hsz
      cases xs with
      | nil => simp [sizeL]
      | cons x t =>
        exact absurd hsz (by
          have h1 : (x :: t : List Json) ≠ [] := by simp
          have := sizeL_pos h1
          omega)
    · intro kvs ind hsz
      cases kvs with
      | nil => simp [sizeM]
      | cons kv t =>
        exact absurd hsz (by
          have h1 : (kv :: t : List (String × Json)) ≠ [] := by simp
          have := sizeM_pos h1
          omega)
  | succ m ih =>
    obtain ⟨ih1, ih2, ih3⟩ := ih
    refine ⟨?_, ?_, ?_⟩
    · intro v ind hsz
      cases v with
      | null => simp [sizeJ, serVal]
      | bool b => cases b <;> simp [sizeJ, serVal]
      | num n =>
        show sizeJ (.num n) ≤ (intChars n).length
        have h1 : intChars n ≠ [] := by
          unfold intChars
          split
          · simp
          · exact natCharsAux_ne_nil _ _
        have := List.length_pos.mpr h1
        simp [sizeJ]
        omega
      | str s =>
        show sizeJ (.str s) ≤ (quoteStr s).length
        simp [sizeJ, quoteStr]
      | arr xs =>
        cases xs with
        | nil => simp [sizeJ, sizeL, serVal]
        | cons x t =>
          have hsz' : sizeL (x :: t) ≤ m := by
            have h1 : sizeJ (.arr (x :: t)) = 1 + sizeL (x :: t) := rfl
            rw [h1] at hsz
            omega
          have h2 := ih2 (x :: t) (ind + 2) hsz'
          show sizeJ (.arr (x :: t)) ≤
            ('[' :: '\n' :: serItems (ind + 2) (x :: t) ++
              '\n' :: indentC ind ++ [']']).length
          have h3 : sizeJ (.arr (x :: t)) = 1 + sizeL (x :: t) := rfl
          rw [h3]
          simp only [List.length_append, List.length_cons, indentC,
            List.length_replicate, List.length_singleton]
          omega
      | obj kvs =>
        cases kvs with
        | nil => simp [sizeJ, sizeM, serVal]
        | cons kv t =>
          have hsz' : sizeM (kv :: t) ≤ m := by
            have h1 : sizeJ (.obj (kv :: t)) = 1 + sizeM (kv :: t) := rfl
            rw [h1] at hsz
            omega
          have h2 := ih3 (kv :: t) (ind + 2) hsz'
          show sizeJ (.obj (kv :: t)) ≤
            ('\x7b' :: '\n' :: serMembers (ind + 2) (kv :: t) ++
              '\n' :: indentC ind ++ ['\x7d']).length
          have h3 : sizeJ (.obj (kv :: t)) = 1 + sizeM (kv :: t) := rfl
          rw [h3]
          simp only [List.length_append, List.length_cons, indentC,
            List.length_replicate, List.length_singleton]
          omega
    · intro xs ind hsz
      cases xs with
      | nil => simp [sizeL]
      | cons x t =>
        have hsx : sizeL (x :: t) = 1 + sizeJ x + sizeL t := rfl
        rw [hsx] at hsz ⊢
        have hx := ih1 x ind (by omega)
        cases t with
        | nil =>
          show 1 + sizeJ x + sizeL [] ≤ (indentC ind ++ serVal ind x).length + 3
          simp only [List.length_append, indentC, List.length_replicate, sizeL]
          omega
        | cons y ys =>
          have ht := ih2 (y :: ys) ind (by omega)
          show 1 + sizeJ x + sizeL (y :: ys) ≤
            (indentC ind ++ serVal ind x ++
              ',' :: '\n' :: serItems ind (y :: ys)).length + 3
          simp only [List.length_append, List.length_cons, indentC,
            List.length_replicate]
          omega
    · intro kvs ind hsz
      cases kvs with
      | nil => simp [sizeM]
      | cons kv t =>
        obtain ⟨k, v⟩ := kv
        have hsx : sizeM ((k, v) :: t) = 1 + sizeJ v + sizeM t := rfl
        rw [hsx] at hsz ⊢
        have hx := ih1 v ind (by omega)
        cases t with
        | nil =>
          show 1 + sizeJ v + sizeM [] ≤
            (indentC ind ++ quoteStr k ++ ':' :: ' ' :: serVal ind v).length + 3
          simp only [List.length_append, List.length_cons, indentC,
            List.length_replicate, sizeM]
          omega
        | cons kv2 ys =>
          have ht := ih3 (kv2 :: ys) ind (by omega)
          show 1 + sizeJ v + sizeM (kv2 :: ys) ≤
            (indentC ind ++ quoteStr k ++ ':' :: ' ' :: serVal ind v ++
              ',' :: '\n' :: serMembers ind (kv2 :: ys)).length + 3
          simp only [List.length_append, List.length_cons, indentC,
            List.length_replicate]
          omega

/-- The serializer never produces the empty string. -/
theorem stringify_ne_empty (v : Json) : stringify v ≠ "" := by
  obtain ⟨c, t, hct, _⟩ := serVal_head 0 v
  unfold stringify
  rw [hct]
  intro h
  have := congrArg String.data h
  simp at this

/-- Round trip: parsing a serialized well-formed value recovers it. -/
theorem parse_stringify {v : Json} (hwf : wfJ v = true) :
    parseJson (stringify v) = some v := by
  unfold parseJson stringify
  have h1 : parseVal ((serVal 0 v).length + 1) (serVal 0 v) = some (v, []) := by
    have h2 := (parse_ser ((serVal 0 v).length + 1)).1 0 v []
      (by have := (ser_length (sizeJ v)).1 v 0 (le_refl _); omega)
      hwf (by simp [digitHead])
    rw [List.append_nil] at h2
    exact h2
  show (match parseVal ((serVal 0 v).length + 1) (serVal 0 v) with
    | some (w, rest) => if skipWs rest = [] then some w else none
    | none => none) = some v
  rw [h1]
  simp [skipWs]

theorem wfM_mem {l : List (String × Json)} {kv : String × Json}
    (h : wfM l = true) (hm : kv ∈ l) : wfJ kv.2 = true := by
  induction l with
  | nil => cases hm
  | cons kv0 rest ih =>
    obtain ⟨k0, v0⟩ := kv0
    simp only [wfM, Bool.and_eq_true] at h
    rcases List.mem_cons.mp hm with he | hm'
    · subst he; exact h.1
    · exact ih h.2 hm'

theorem wfM_setKey {l : List (String × Json)} {k : String} {v : Json}
    (h : wfM l = true) (hv : wfJ v = true) : wfM (setKey l k v) = true := by
  induction l with
  | nil => simpa [setKey, wfM]
  | cons kv rest ih =>
    obtain ⟨k0, v0⟩ := kv
    simp only [wfM, Bool.and_eq_true] at h
    by_cases h0 : k0 = k
    · rw [show setKey ((k0, v0) :: rest) k v = (k, v) :: rest from by simp [setKey, h0]]
      simp only [wfM, Bool.and_eq_true]
      exact ⟨hv, h.2⟩
    · rw [show setKey ((k0, v0) :: rest) k v = (k0, v0) :: setKey rest k v from by
        simp [setKey, h0]]
      simp only [wfM, Bool.and_eq_true]
      exact ⟨h.1, ih h.2⟩

theorem nodupKeys_foldl_setKey :
    ∀ (kvs acc : List (String × Json)), nodupKeys acc = true →
    nodupKeys (kvs.foldl (fun a kv => setKey a kv.1 kv.2) acc) = true := by
  intro kvs
  induction kvs with
  | nil => intro acc h; simpa
  | cons kv rest ih =>
    intro acc h
    exact ih (setKey acc kv.1 kv.2) (nodupKeys_setKey kv.1 kv.2 h)

theorem wfM_foldl_setKey :
    ∀ (kvs acc : List (String × Json)), wfM acc = true →
    (∀ kv ∈ kvs, wfJ kv.2 = true) →
    wfM (kvs.foldl (fun a kv => setKey a kv.1 kv.2) acc) = true := by
  intro kvs
  induction kvs with
  | nil => intro acc h _; simpa
  | cons kv rest ih =>
    intro acc h hall
    exact ih (setKey acc kv.1 kv.2) (wfM_setKey h (hall kv (by simp)))
      (fun kv' hm => hall kv' (by simp [hm]))

theorem wfJ_buildObj {kvs : List (String × Json)}
    (h : ∀ kv ∈ kvs, wfJ kv.2 = true) : wfJ (.obj (buildObj kvs)) = true := by
  show (nodupKeys (buildObj kvs) && wfM (buildObj kvs)) = true
  rw [Bool.and_eq_true]
  exact ⟨nodupKeys_foldl_setKey kvs [] rfl, wfM_foldl_setKey kvs [] rfl h⟩

/-- Any value the parser produces is well-formed: duplicate keys collapse. -/
theorem parse_wf : ∀ fuel : Nat,
    (∀ cs v rest, parseVal fuel cs = some (v, rest) → wfJ v = true) ∧
    (∀ cs xs rest, parseItems fuel cs = some (xs, rest) → wfL xs = true) ∧
    (∀ cs kvs rest, parseMembers fuel cs = some (kvs, rest) →
      ∀ kv ∈ kvs, wfJ kv.2 = true) := by
  intro fuel
  induction fuel with
  | zero =>
    refine ⟨?_, ?_, ?_⟩ <;> intro cs a rest h <;> simp [parseVal, parseItems, parseMembers] at h
  | succ m ih =>
    obtain ⟨ihV, ihI, ihM⟩ := ih
    refine ⟨?_, ?_, ?_⟩
    · intro cs v rest h
      simp only [parseVal] at h
      split at h
      · exact absurd h (by simp)
      · split at h
        · split at h
          · injection h with h1
            injection h1 with h2 h3
            subst h2
            rfl
          · split at h
            · split at h
              · injection h with h1
                injection h1 with h2 h3
                subst h2
                exact wfJ_buildObj (ihM _ _ _ (by assumption))
              · exact absurd h (by simp)
            · exact absurd h (by simp)
        · split at h
          · split at h
            · injection h with h1
              injection h1 with h2 h3
              subst h2
              rfl
            · split at h
              · split at h
                · injection h with h1
                  injection h1 with h2 h3
                  subst h2
                  exact ihI _ _ _ (by assumption)
                · exact absurd h (by simp)
              · exact absurd h (by simp)
          · split at h
            · rcases Option.map_eq_some'.mp h with ⟨p, hp, he⟩
              injection he with h2 h3
              subst h2
              rfl
            · split at h
              · split at h
                · injection h with h1
                  injection h1 with h2 h3
                  subst h2
                  rfl
                · exact absurd h (by simp)
              · split at h
                · split at h
                  · injection h with h1
                    injection h1 with h2 h3
                    subst h2
                    rfl
                  · exact absurd h (by simp)
                · split at h
                  · split at h
                    · injection h with h1
                      injection h1 with h2 h3
                      subst h2
                      rfl
                    · exact absurd h (by simp)
                  · split at h
                    · split at h
                      · exact absurd h (by simp)
                      · split at h
                        · injection h with h1
                          injection h1 with h2 h3
                          subst h2
                          rfl
                        · exact absurd h (by simp)
                    · split at h
                      · injection h with h1
                        injection h1 with h2 h3
                        subst h2
                        rfl
                      · exact absurd h (by simp)
    · intro cs xs rest h
      simp only [parseItems] at h
      split at h
      · split at h
        · split at h
          · injection h with h1
            injection h1 with h2 h3
            subst h2
            simp only [wfL, Bool.and_eq_true]
            exact ⟨ihV _ _ _ (by assumption), ihI _ _ _ (by assumption)⟩
          · exact absurd h (by simp)
        · injection h with h1
          injection h1 with h2 h3
          subst h2
          simp only [wfL, Bool.and_eq_true]
          exact ⟨ihV _ _ _ (by assumption), trivial⟩
      · exact absurd h (by simp)
    · intro cs kvs rest h
      simp only [parseMembers] at h
      split at h
      · split at h
        · split at h
          · split at h
            · split at h
              · split at h
                · injection h with h1
                  injection h1 with h2 h3
                  subst h2
                  intro kv hm
                  rcases List.mem_cons.mp hm with he | hm'
                  · subst he
                    exact ihV _ _ _ (by assumption)
                  · exact ihM _ _ _ (by assumption) kv hm'
                · exact absurd h (by simp)
              · injection h with h1
                injection h1 with h2 h3
                subst h2
                intro kv hm
                rcases List.mem_cons.mp hm with he | hm'
                · subst he
                  exact ihV _ _ _ (by assumption)
                · cases hm'
            · exact absurd h (by simp)
          · exact absurd h (by simp)
        · exact absurd h (by simp)
      · exact absurd h (by simp)

/-- A successfully parsed document is well-formed. -/
theorem parseJson_wf {s : String} {v : Json} (h : parseJson s = some v) :
    wfJ v = true := by
  unfold parseJson at h
  split at h
  · split at h
    · injection h with h1
      subst h1
      exact (parse_wf _).1 _ _ _ (by assumption)
    · exact absurd h (by simp)
  · exact absurd h (by simp)

/-- Well-formedness of a possibly-`undefined` cursor value. -/
def wfO : Option Json → Bool
  | none => true
  | some v => wfJ v

theorem lookupKey_mem {l : List (String × Json)} {k : String} {v : Json}
    (h : lookupKey l k = some v) : (k, v) ∈ l := by
  induction l with
  | nil => simp [lookupKey] at h
  | cons kv rest ih =>
    obtain ⟨k0, v0⟩ := kv
    by_cases h0 : k0 = k
    · subst h0
      have he : lookupKey ((k0, v0) :: rest) k0 = some v0 := by simp [lookupKey]
      rw [he] at h
      injection h with h1
      subst h1
      exact List.mem_cons_self _ _
    · simp only [lookupKey, if_neg h0] at h
      exact List.mem_cons.mpr (Or.inr (ih h))

theorem wfL_forall {xs : List Json} :
    wfL xs = true ↔ ∀ x ∈ xs, wfJ x = true := by
  induction xs with
  | nil => simp [wfL]
  | cons x t ih =>
    simp only [wfL, Bool.and_eq_true, ih, List.mem_cons]
    constructor
    · rintro ⟨h1, h2⟩ y (he | hm)
      · subst he; exact h1
      · exact h2 y hm
    · intro h
      exact ⟨h x (Or.inl rfl), fun y hm => h y (Or.inr hm)⟩

theorem wfM_forall {l : List (String × Json)} :
    wfM l = true ↔ ∀ kv ∈ l, wfJ kv.2 = true := by
  induction l with
  | nil => simp [wfM]
  | cons kv t ih =>
    obtain ⟨k, v⟩ := kv
    simp only [wfM, Bool.and_eq_true, ih, List.mem_cons]
    constructor
    · rintro ⟨h1, h2⟩ y (he | hm)
      · subst he; exact h1
      · exact h2 y hm
    · intro h
      exact ⟨h (k, v) (Or.inl rfl), fun y hm => h y (Or.inr hm)⟩

theorem mem_setIdx {xs : List Json} {i : Nat} {v x : Json}
    (h : x ∈ setIdx xs i v) : x ∈ xs ∨ x = v ∨ x = .null := by
  unfold setIdx at h
  split at h
  · rcases List.mem_or_eq_of_mem_set h with hm | he
    · exact Or.inl hm
    · exact Or.inr (Or.inl he)
  · rcases List.mem_append.mp h with hm | hm
    · rcases List.mem_append.mp hm with hm' | hm'
      · exact Or.inl hm'
      · exact Or.inr (Or.inr (List.eq_of_mem_replicate hm'))
    · exact Or.inr (Or.inl (by simpa using hm))

theorem wfL_setIdx {xs : List Json} {i : Nat} {v : Json}
    (hx : wfL xs = true) (hv : wfJ v = true) : wfL (setIdx xs i v) = true := by
  rw [wfL_forall]
  intro x hm
  rcases mem_setIdx hm with hm' | he | he
  · exact wfL_forall.mp hx x hm'
  · subst he; exact hv
  · subst he; rfl

theorem wfO_jsRead {c : Json} {seg : Seg} {t : Option Json}
    (hc : wfJ c = true) (h : jsRead (some c) seg = .ok t) : wfO t = true := by
  cases c with
  | null => simp [jsRead] at h
  | bool b =>
    simp only [jsRead, Except.ok.injEq] at h
    subst h; rfl
  | num n =>
    simp only [jsRead, Except.ok.injEq] at h
    subst h; rfl
  | str s =>
    simp only [jsRead] at h
    split at h
    · injection h with h1
      subst h1
      cases s.data.get? _ <;> rfl
    · injection h with h1
      subst h1; rfl
  | arr xs =>
    simp only [jsRead] at h
    split at h
    · injection h with h1
      subst h1
      cases hg : xs.get? _ with
      | none => rfl
      | some x =>
        show wfJ x = true
        exact wfL_forall.mp hc x (List.get?_mem hg)
    · injection h with h1
      subst h1; rfl
  | obj kvs =>
    simp only [jsRead, Except.ok.injEq] at h
    subst h
    cases hl : lookupKey kvs (segKey seg) with
    | none => rfl
    | some v =>
      show wfJ v = true
      have hc2 : wfM kvs = true := by
        have : (nodupKeys kvs && wfM kvs) = true := hc
        exact (Bool.and_eq_true .. ▸ this).2
      exact wfM_mem hc2 (lookupKey_mem hl)

theorem wfJ_jsWrite {c : Json} {seg : Seg} {v w : Json}
    (hc : wfJ c = true) (hv : wfJ v = true) (h : jsWrite c seg v = .ok w) :
    wfJ w = true := by
  cases c with
  | obj kvs =>
    simp only [jsWrite, Except.ok.injEq] at h
    subst h
    have hnd : nodupKeys kvs = true := (Bool.and_eq_true .. ▸ hc).1
    have hm : wfM kvs = true := (Bool.and_eq_true .. ▸ hc).2
    show (nodupKeys (setKey kvs (segKey seg) v) && wfM (setKey kvs (segKey seg) v)) = true
    rw [Bool.and_eq_true]
    exact ⟨nodupKeys_setKey _ _ hnd, wfM_setKey hm hv⟩
  | arr xs =>
    simp only [jsWrite] at h
    split at h
    · injection h with h1
      subst h1
      show wfL (setIdx xs _ v) = true
      exact wfL_setIdx hc hv
    · injection h with h1
      subst h1
      exact hc
  | null => simp [jsWrite] at h
  | bool b => simp [jsWrite] at h
  | num n => simp [jsWrite] at h
  | str s => simp [jsWrite] at h

theorem mem_delKey {l : List (String × Json)} {k : String} {kv : String × Json}
    (h : kv ∈ delKey l k) : kv ∈ l := by
  induction l with
  | nil => simp [delKey] at h
  | cons kv0 rest ih =>
    obtain ⟨k0, v0⟩ := kv0
    by_cases h0 : k0 = k
    · rw [show delKey ((k0, v0) :: rest) k = rest from by simp [delKey, h0]] at h
      exact List.mem_cons.mpr (Or.inr h)
    · rw [show delKey ((k0, v0) :: rest) k = (k0, v0) :: delKey rest k from by
        simp [delKey, h0]] at h
      rcases List.mem_cons.mp h with he | hm
      · exact List.mem_cons.mpr (Or.inl he)
      · exact List.mem_cons.mpr (Or.inr (ih hm))

theorem mem_keys_delKey {l : List (String × Json)} {k k' : String}
    (h : k' ∈ (delKey l k).map Prod.fst) : k' ∈ l.map Prod.fst := by
  rcases List.mem_map.mp h with ⟨kv, hm, he⟩
  exact List.mem_map.mpr ⟨kv, mem_delKey hm, he⟩

theorem nodupKeys_delKey {l : List (String × Json)} (k : String)
    (h : nodupKeys l = true) : nodupKeys (delKey l k) = true := by
  induction l with
  | nil => simp [delKey, nodupKeys]
  | cons kv rest ih =>
    obtain ⟨k0, v0⟩ := kv
    simp only [nodupKeys, Bool.and_eq_true, Bool.not_eq_true'] at h
    by_cases h0 : k0 = k
    · rw [show delKey ((k0, v0) :: rest) k = rest from by simp [delKey, h0]]
      exact h.2
    · rw [show delKey ((k0, v0) :: rest) k = (k0, v0) :: delKey rest k from by
        simp [delKey, h0]]
      simp only [nodupKeys, Bool.and_eq_true, Bool.not_eq_true']
      refine ⟨?_, ih h.2⟩
      cases hb : ((delKey rest k).map Prod.fst).contains k0 with
      | false => rfl
      | true =>
        exfalso
        have := mem_keys_delKey (strContains_iff.mp hb)
        rw [← strContains_iff] at this
        rw [this] at h
        exact absurd h.1 (by simp)

theorem wfM_delKey {l : List (String × Json)} (k : String)
    (h : wfM l = true) : wfM (delKey l k) = true := by
  rw [wfM_forall]
  intro kv hm
  exact wfM_mem h (mem_delKey hm)

theorem wfJ_objMerge {a b : List (String × Json)}
    (ha : wfJ (.obj a) = true) (hb : wfJ (.obj b) = true) :
    wfJ (.obj (objMerge a b)) = true := by
  have ha1 : nodupKeys a = true := (Bool.and_eq_true .. ▸ ha).1
  have ha2 : wfM a = true := (Bool.and_eq_true .. ▸ ha).2
  have hb2 : wfM b = true := (Bool.and_eq_true .. ▸ hb).2
  show (nodupKeys (objMerge a b) && wfM (objMerge a b)) = true
  rw [Bool.and_eq_true]
  exact ⟨nodupKeys_foldl_setKey b a ha1,
    wfM_foldl_setKey b a ha2 (fun kv hm => wfM_mem hb2 hm)⟩

theorem wfJ_spreadMerge {t : Option Json} {nv : Json}
    (ht : wfO t = true) (hnv : wfJ nv = true) : wfJ (spreadMerge t nv) = true := by
  cases t with
  | none => exact hnv
  | some tv =>
    cases tv with
    | obj tk =>
      cases nv with
      | obj nk => exact wfJ_objMerge ht hnv
      | null => exact hnv
      | bool b => exact hnv
      | num n => exact hnv
      | str s => exact hnv
      | arr xs => exact hnv
    | null => exact hnv
    | bool b => exact hnv
    | num n => exact hnv
    | str s => exact hnv
    | arr xs => exact hnv

theorem renameShape_inv {rows : List Row} {nv : Json}
    (h : renameShape rows nv = true) :
    ∃ r k v, rows = [r] ∧ nv = .obj [(k, v)] := by
  cases rows with
  | nil => simp [renameShape] at h
  | cons r rest =>
    cases rest with
    | cons r2 rest2 => simp [renameShape] at h
    | nil =>
      cases nv with
      | obj kvs =>
        cases kvs with
        | nil => simp [renameShape] at h
        | cons kv kvs2 =>
          cases kvs2 with
          | nil => exact ⟨r, kv.1, kv.2, rfl, by rfl⟩
          | cons kv2 kvs3 => simp [renameShape] at h
      | null => simp [renameShape] at h
      | bool b => simp [renameShape] at h
      | num n => simp [renameShape] at h
      | str s => simp [renameShape] at h
      | arr xs => simp [renameShape] at h

theorem applyAtCursor_wf {rows : List Row} {lk : Seg} {nv : Json}
    {cursor : Option Json} {w : Json} (hnv : wfJ nv = true)
    (hc : wfO cursor = true) (h : applyAtCursor rows lk nv cursor = .ok w) :
    wfJ w = true := by
  cases cursor with
  | none => simp [applyAtCursor] at h
  | some cur =>
    simp only [applyAtCursor] at h
    have hcw : wfJ cur = true := hc
    cases hjr : jsRead (some cur) lk with
    | error e => rw [hjr] at h; simp at h
    | ok target =>
      rw [hjr] at h
      have htw : wfO target = true := wfO_jsRead hcw hjr
      simp only at h
      split_ifs at h with hg hr hne
      · exact wfJ_jsWrite hcw (wfJ_spreadMerge htw hnv) h
      · obtain ⟨r, k1, v1, hrw, hnve⟩ := renameShape_inv hr
        have hv1 : wfJ ((firstEntry nv).2) = true := by
          subst hnve
          show wfJ v1 = true
          have h1 : (nodupKeys [(k1, v1)] && wfM [(k1, v1)]) = true := hnv
          have h2 := (Bool.and_eq_true .. ▸ h1).2
          exact (Bool.and_eq_true .. ▸ (h2 : (wfJ v1 && wfM []) = true)).1
        cases target with
        | none =>
          have h' : jsWrite cur lk nv = Except.ok w := h
          exact wfJ_jsWrite hcw hnv h'
        | some tv =>
          cases tv with
          | obj pk =>
            have h' : jsWrite cur lk (Json.obj
                (delKey (setKey pk (firstEntry nv).1 (firstEntry nv).2)
                  (rowsOldKey rows))) = Except.ok w := h
            have hpk : wfJ (.obj pk) = true := htw
            have hnd : nodupKeys pk = true := (Bool.and_eq_true .. ▸ hpk).1
            have hm : wfM pk = true := (Bool.and_eq_true .. ▸ hpk).2
            refine wfJ_jsWrite hcw ?_ h'
            show (nodupKeys _ && wfM _) = true
            rw [Bool.and_eq_true]
            exact ⟨nodupKeys_delKey _ (nodupKeys_setKey _ _ hnd),
              wfM_delKey _ (wfM_setKey hm hv1)⟩
          | null =>
            have h' : (Except.error EditErr.typeErr : Except EditErr Json) = Except.ok w := h
            simp at h'
          | bool b =>
            have h' : jsWrite cur lk nv = Except.ok w := h
            exact wfJ_jsWrite hcw hnv h'
          | num n =>
            have h' : jsWrite cur lk nv = Except.ok w := h
            exact wfJ_jsWrite hcw hnv h'
          | str s =>
            have h' : jsWrite cur lk nv = Except.ok w := h
            exact wfJ_jsWrite hcw hnv h'
          | arr xs =>
            have h' : jsWrite cur lk nv = Except.ok w := h
            exact wfJ_jsWrite hcw hnv h'
      · obtain ⟨r, k1, v1, hrw, hnve⟩ := renameShape_inv hr
        have hv1 : wfJ ((firstEntry nv).2) = true := by
          subst hnve
          show wfJ v1 = true
          have h1 : (nodupKeys [(k1, v1)] && wfM [(k1, v1)]) = true := hnv
          have h2 := (Bool.and_eq_true .. ▸ h1).2
          exact (Bool.and_eq_true .. ▸ (h2 : (wfJ v1 && wfM []) = true)).1
        cases target with
        | none =>
          have h' : jsWrite cur lk nv = Except.ok w := h
          exact wfJ_jsWrite hcw hnv h'
        | some tv =>
          cases tv with
          | obj pk =>
            have h' : jsWrite cur lk (Json.obj
                (setKey pk (firstEntry nv).1 (firstEntry nv).2)) = Except.ok w := h
            have hpk : wfJ (.obj pk) = true := htw
            have hnd : nodupKeys pk = true := (Bool.and_eq_true .. ▸ hpk).1
            have hm : wfM pk = true := (Bool.and_eq_true .. ▸ hpk).2
            refine wfJ_jsWrite hcw ?_ h'
            show (nodupKeys _ && wfM _) = true
            rw [Bool.and_eq_true]
            exact ⟨nodupKeys_setKey _ _ hnd, wfM_setKey hm hv1⟩
          | null =>
            have h' : (Except.error EditErr.typeErr : Except EditErr Json) = Except.ok w := h
            simp at h'
          | bool b =>
            have h' : jsWrite cur lk nv = Except.ok w := h
            exact wfJ_jsWrite hcw hnv h'
          | num n =>
            have h' : jsWrite cur lk nv = Except.ok w := h
            exact wfJ_jsWrite hcw hnv h'
          | str s =>
            have h' : jsWrite cur lk nv = Except.ok w := h
            exact wfJ_jsWrite hcw hnv h'
          | arr xs =>
            have h' : jsWrite cur lk nv = Except.ok w := h
            exact wfJ_jsWrite hcw hnv h'
      · exact wfJ_jsWrite hcw hnv h

theorem mutateAt_wf : ∀ (pp : List Seg) (cur : Option Json)
    (f : Option Json → Except EditErr Json) (w : Json), wfO cur = true →
    (∀ o w', wfO o = true → f o = .ok w' → wfJ w' = true) →
    mutateAt cur pp f = .ok w → wfJ w = true := by
  intro pp
  induction pp with
  | nil =>
    intro cur f w hc hf h
    exact hf cur w hc h
  | cons seg rest ih =>
    intro cur f w hc hf h
    cases cur with
    | none => simp [mutateAt, jsRead] at h
    | some c =>
      simp only [mutateAt] at h
      cases hjr : jsRead (some c) seg with
      | error e => rw [hjr] at h; simp at h
      | ok child =>
        rw [hjr] at h
        simp only at h
        cases hmt : mutateAt child rest f with
        | error e => rw [hmt] at h; simp at h
        | ok newChild =>
          rw [hmt] at h
          simp only at h
          have hcw : wfJ c = true := hc
          have hchild : wfO child = true := wfO_jsRead hcw hjr
          have hnc : wfJ newChild = true := ih child f newChild hchild hf hmt
          exact wfJ_jsWrite hcw hnc h

theorem determineNewValue_wf {rows : List Row} {text : String} {nv : Json}
    (h : determineNewValue rows text = .ok nv) : wfJ nv = true := by
  unfold determineNewValue at h
  split at h
  · injection h with h1
    subst h1
    exact parseJson_wf (by assumption)
  · split at h
    · injection h with h1
      subst h1
      rfl
    · simp at h

theorem parseRoot_wf {d : String} {pr : Json} (h : parseRoot d = .ok pr) :
    wfJ pr = true := by
  unfold parseRoot at h
  split at h
  · injection h with h1
    subst h1
    rfl
  · split at h
    · injection h with h1
      subst h1
      exact parseJson_wf (by assumption)
    · simp at h

/-- Parsing back a serialized well-formed document through the store-parsing
step recovers the value. -/
theorem parseRoot_stringify {w : Json} (hw : wfJ w = true) :
    parseRoot (stringify w) = .ok w := by
  have hne : stringify w ≠ "" := stringify_ne_empty w
  have hie : (stringify w).isEmpty = false := by
    cases hb : (stringify w).isEmpty with
    | false => rfl
    | true => exact absurd ((String.isEmpty_iff _).mp hb) hne
  simp only [parseRoot, hie, Bool.false_eq_true, if_false, parse_stringify hw]

/-- C3: whenever the save operation succeeds, the string it stores is the
serialization of a well-formed JSON value, and parsing it back recovers
exactly that value (round-tripping is lossless). -/
theorem claim_C3_valid_json_invariant (d text s : String) (rows : List Row)
    (path : List Seg) (h : save d rows path text = .ok s) :
    ∃ v : Json, wfJ v = true ∧ s = stringify v ∧ parseJson s = some v := by
  unfold save saveRun at h
  cases hpr : parseRoot d with
  | error e =>
    simp only [hpr, Except.map] at h
    exact absurd h (by simp)
  | ok pr =>
    simp only [hpr] at h
    cases hnv : determineNewValue rows text with
    | error e =>
      simp only [hnv, Except.map] at h
      exact absurd h (by simp)
    | ok nv =>
      simp only [hnv] at h
      have hprw := parseRoot_wf hpr
      have hnvw := determineNewValue_wf hnv
      cases hsl : splitLast path with
      | none =>
        simp only [hsl, Except.map] at h
        injection h with hs
        by_cases hg : (isEditingObjectFields rows && isPlainObj nv) = true
        · have hs2 : (saveRoot rows pr nv).1 =
              stringify (if isPlainObj pr then spreadMerge (some pr) nv else nv) := by
            simp only [saveRoot, hg, if_true]
          refine ⟨if isPlainObj pr then spreadMerge (some pr) nv else nv, ?_, ?_, ?_⟩
          · split
            · exact wfJ_spreadMerge (hprw : wfO (some pr) = true) hnvw
            · exact hnvw
          · rw [← hs, hs2]
          · rw [← hs, hs2]
            exact parse_stringify (by
              split
              · exact wfJ_spreadMerge (hprw : wfO (some pr) = true) hnvw
              · exact hnvw)
        · have hs2 : (saveRoot rows pr nv).1 = stringify nv := by
            simp only [saveRoot, hg, Bool.false_eq_true, if_false]
          exact ⟨nv, hnvw, by rw [← hs, hs2], by rw [← hs, hs2]; exact parse_stringify hnvw⟩
      | some pl =>
        obtain ⟨pp, lk⟩ := pl
        simp only [hsl] at h
        cases hmt : mutateAt (some pr) pp (applyAtCursor rows lk nv) with
        | error e =>
          simp only [hmt, Except.map] at h
          exact absurd h (by simp)
        | ok nr =>
          simp only [hmt, Except.map] at h
          injection h with hs
          have hw : wfJ nr = true := mutateAt_wf pp (some pr) _ nr hprw
            (fun o w' ho hf => applyAtCursor_wf hnvw ho hf) hmt
          exact ⟨nr, hw, hs.symm, by rw [← hs]; exact parse_stringify hw⟩

/-- Witness for C3 at a concrete successful save. -/
theorem claim_C3_valid_json_invariant_witness :
    ∃ v : Json, wfJ v = true ∧ "5" = stringify v ∧ parseJson "5" = some v :=
  claim_C3_valid_json_invariant "" "5" "5" [] [] (by rfl)

theorem set_eq_self_of_get? : ∀ (l : List Json) (n : Nat) (a : Json),
    l.get? n = some a → l.set n a = l := by
  intro l
  induction l with
  | nil => intro n a h; simp at h
  | cons x t ih =>
    intro n a h
    cases n with
    | zero =>
      simp only [List.get?] at h
      injection h with h1
      subst h1
      simp
    | succ m =>
      simp only [List.get?] at h
      simp [List.set, ih m a h]

theorem setIdx_get_self (xs : List Json) (i : Nat) (v : Json) :
    (setIdx xs i v).get? i = some v := by
  unfold setIdx
  by_cases hlt : i < xs.length
  · rw [if_pos hlt]
    exact List.get?_set_eq_of_lt _ hlt
  · rw [if_neg hlt]
    set A := xs ++ List.replicate (i - xs.length) Json.null with hA
    have hlen : A.length = i := by
      rw [hA]; simp; omega
    rw [← hlen, List.get?_concat_length]

theorem setIdx_absorb (xs : List Json) (i : Nat) (v : Json) :
    setIdx (setIdx xs i v) i v = setIdx xs i v := by
  have hget := setIdx_get_self xs i v
  obtain ⟨hlt, -⟩ := List.get?_eq_some.mp hget
  conv_lhs => rw [setIdx]
  rw [if_pos hlt]
  exact set_eq_self_of_get? _ _ _ hget

theorem lookupKey_delKey_ne {l : List (String × Json)} {k k' : String}
    (hne : k' ≠ k) : lookupKey (delKey l k) k' = lookupKey l k' := by
  induction l with
  | nil => simp [delKey]
  | cons kv rest ih =>
    obtain ⟨k0, v0⟩ := kv
    by_cases h0 : k0 = k
    · rw [show delKey ((k0, v0) :: rest) k = rest from by simp [delKey, h0]]
      have h1 : k0 ≠ k' := by rw [h0]; exact fun he => hne he.symm
      simp [lookupKey, h1]
    · rw [show delKey ((k0, v0) :: rest) k = (k0, v0) :: delKey rest k from by
        simp [delKey, h0]]
      by_cases h1 : k0 = k'
      · simp [lookupKey, h1]
      · simp [lookupKey, h1, ih]

theorem objMerge_noop {l b : List (String × Json)}
    (h : ∀ kv ∈ b, lookupKey l kv.1 = some kv.2) : objMerge l b = l := by
  induction b generalizing l with
  | nil => rfl
  | cons kv rest ih =>
    obtain ⟨k, v⟩ := kv
    show objMerge (setKey l k v) rest = l
    have hm0 : ((k, v) : String × Json) ∈ (k, v) :: rest := List.mem_cons_self _ _
    rw [setKey_of_lookup (h (k, v) hm0)]
    exact ih (fun kv' hm => h kv' (List.mem_cons.mpr (Or.inr hm)))

theorem lookup_objMerge_not_mem {a b : List (String × Json)} {k : String}
    (h : k ∉ b.map Prod.fst) : lookupKey (objMerge a b) k = lookupKey a k := by
  induction b generalizing a with
  | nil => rfl
  | cons kv rest ih =>
    obtain ⟨k0, v0⟩ := kv
    have h1 : k ∉ rest.map Prod.fst := fun hm => h (by simp [hm])
    have h2 : k ≠ k0 := fun he => h (by simp [he])
    show lookupKey (objMerge (setKey a k0 v0) rest) k = lookupKey a k
    rw [ih h1, lookupKey_setKey_ne _ _ h2]

theorem lookup_objMerge_self {a b : List (String × Json)}
    (hnd : nodupKeys b = true) :
    ∀ kv ∈ b, lookupKey (objMerge a b) kv.1 = some kv.2 := by
  induction b generalizing a with
  | nil => intro kv hm; cases hm
  | cons kv0 rest ih =>
    intro kv hm
    obtain ⟨k0, v0⟩ := kv0
    simp only [nodupKeys, Bool.and_eq_true, Bool.not_eq_true'] at hnd
    rcases List.mem_cons.mp hm with he | hm'
    · subst he
      show lookupKey (objMerge (setKey a k0 v0) rest) k0 = some v0
      have hnm : k0 ∉ rest.map Prod.fst := by
        intro hmem
        rw [← strContains_iff] at hmem
        rw [hmem] at hnd
        exact absurd hnd.1 (by simp)
      rw [lookup_objMerge_not_mem hnm, lookupKey_setKey_self]
    · exact ih hnd.2 kv hm'

theorem objMerge_absorb {a b : List (String × Json)} (hnd : nodupKeys b = true) :
    objMerge (objMerge a b) b = objMerge a b :=
  objMerge_noop (lookup_objMerge_self hnd)

theorem spreadMerge_self {nv : Json} (h : wfJ nv = true) :
    spreadMerge (some nv) nv = nv := by
  cases nv with
  | obj nk =>
    show Json.obj (objMerge nk nk) = Json.obj nk
    have hnd : nodupKeys nk = true := (Bool.and_eq_true .. ▸ h).1
    rw [objMerge_noop (fun kv hm => lookupKey_of_mem_nodup hm hnd)]
  | null => rfl
  | bool b => rfl
  | num n => rfl
  | str s => rfl
  | arr xs => rfl

theorem isSomePlainObj_inv {t : Option Json} (h : isSomePlainObj t = true) :
    ∃ tk, t = some (.obj tk) := by
  cases t with
  | none => simp [isSomePlainObj] at h
  | some tv =>
    cases tv with
    | obj tk => exact ⟨tk, rfl⟩
    | null => simp [isSomePlainObj] at h
    | bool b => simp [isSomePlainObj] at h
    | num n => simp [isSomePlainObj] at h
    | str s => simp [isSomePlainObj] at h
    | arr xs => simp [isSomePlainObj] at h

theorem isPlainObj_inv {v : Json} (h : isPlainObj v = true) :
    ∃ nk, v = .obj nk := by
  cases v with
  | obj nk => exact ⟨nk, rfl⟩
  | null => simp [isPlainObj] at h
  | bool b => simp [isPlainObj] at h
  | num n => simp [isPlainObj] at h
  | str s => simp [isPlainObj] at h
  | arr xs => simp [isPlainObj] at h

theorem renameShape_editing {rows : List Row} {nv : Json}
    (h : renameShape rows nv = true) :
    isEditingObjectFields rows = true ∧ isPlainObj nv = true := by
  obtain ⟨r, k1, v1, hrw, hnve⟩ := renameShape_inv h
  subst hrw
  subst hnve
  have hk : keyTruthy r.key = true := h
  constructor
  · simp [isEditingObjectFields, hk]
  · rfl

/-- Re-applying the handler to an object cursor that already holds the plain
replacement under the final key returns the cursor unchanged. -/
theorem applyAtCursor_replay_obj (rows : List Row) (lk : Seg) (nv : Json)
    (kvs : List (String × Json)) (hnv : wfJ nv = true) :
    applyAtCursor rows lk nv (some (.obj (setKey kvs (segKey lk) nv))) =
      .ok (.obj (setKey kvs (segKey lk) nv)) := by
  simp only [applyAtCursor, jsRead, lookupKey_setKey_self]
  by_cases hg : (isEditingObjectFields rows && isSomePlainObj (some nv) && isPlainObj nv) = true
  · rw [if_pos hg]
    simp only [jsWrite, spreadMerge_self hnv, setKey_setKey_same]
  · rw [if_neg hg]
    by_cases hr : renameShape rows nv = true
    · exfalso
      obtain ⟨hEF, hPO⟩ := renameShape_editing hr
      obtain ⟨nk, hnk⟩ := isPlainObj_inv hPO
      subst hnk
      exact hg (by simp [hEF, isSomePlainObj, isPlainObj])
    · rw [if_neg hr]
      simp only [jsWrite, setKey_setKey_same]

/-- Re-applying the handler to an array cursor that already holds the plain
replacement at the final index returns the cursor unchanged. -/
theorem applyAtCursor_replay_arr (rows : List Row) (lk : Seg) (nv : Json)
    (xs : List Json) (i : Nat) (hsi : segIdx lk = some i) (hnv : wfJ nv = true) :
    applyAtCursor rows lk nv (some (.arr (setIdx xs i nv))) =
      .ok (.arr (setIdx xs i nv)) := by
  simp only [applyAtCursor, jsRead, hsi, setIdx_get_self]
  by_cases hg : (isEditingObjectFields rows && isSomePlainObj (some nv) && isPlainObj nv) = true
  · rw [if_pos hg]
    simp only [jsWrite, hsi, spreadMerge_self hnv, setIdx_absorb]
  · rw [if_neg hg]
    by_cases hr : renameShape rows nv = true
    · exfalso
      obtain ⟨hEF, hPO⟩ := renameShape_editing hr
      obtain ⟨nk, hnk⟩ := isPlainObj_inv hPO
      subst hnk
      exact hg (by simp [hEF, isSomePlainObj, isPlainObj])
    · rw [if_neg hr]
      simp only [jsWrite, hsi, setIdx_absorb]

/-- Re-applying the handler to an object cursor holding a freshly merged
object under the final key returns the cursor unchanged. -/
theorem applyAtCursor_replay_obj_merge (rows : List Row) (lk : Seg)
    (kvs tk nk : List (String × Json)) (hEF : isEditingObjectFields rows = true)
    (hnd : nodupKeys nk = true) :
    applyAtCursor rows lk (.obj nk)
      (some (.obj (setKey kvs (segKey lk) (.obj (objMerge tk nk))))) =
      .ok (.obj (setKey kvs (segKey lk) (.obj (objMerge tk nk)))) := by
  simp only [applyAtCursor, jsRead, lookupKey_setKey_self]
  rw [if_pos (by simp [hEF, isSomePlainObj, isPlainObj])]
  show Except.ok (Json.obj (setKey (setKey kvs (segKey lk) (.obj (objMerge tk nk)))
    (segKey lk) (.obj (objMerge (objMerge tk nk) nk)))) = _
  rw [objMerge_absorb hnd, setKey_setKey_same]

/-- Re-applying the handler to an array cursor holding a freshly merged
object at the final index returns the cursor unchanged. -/
theorem applyAtCursor_replay_arr_merge (rows : List Row) (lk : Seg)
    (xs : List Json) (i : Nat) (tk nk : List (String × Json))
    (hsi : segIdx lk = some i) (hEF : isEditingObjectFields rows = true)
    (hnd : nodupKeys nk = true) :
    applyAtCursor rows lk (.obj nk)
      (some (.arr (setIdx xs i (.obj (objMerge tk nk))))) =
      .ok (.arr (setIdx xs i (.obj (objMerge tk nk)))) := by
  simp only [applyAtCursor, jsRead, hsi, setIdx_get_self]
  rw [if_pos (by simp [hEF, isSomePlainObj, isPlainObj])]
  simp only [jsWrite, hsi]
  show Except.ok (Json.arr (setIdx (setIdx xs i (.obj (objMerge tk nk))) i
    (.obj (objMerge (objMerge tk nk) nk)))) = _
  rw [objMerge_absorb hnd, setIdx_absorb]

/-- Applying the cursor-level Save mutation to its own successful result is a
no-op: the handler returns the cursor unchanged. -/
theorem applyAtCursor_idem {rows : List Row} {lk : Seg} {nv : Json}
    {cursor : Option Json} {w : Json} (hnv : wfJ nv = true)
    (h : applyAtCursor rows lk nv cursor = .ok w) :
    applyAtCursor rows lk nv (some w) = .ok w := by
  cases cursor with
  | none => simp [applyAtCursor] at h
  | some cur =>
    cases cur with
    | null => simp [applyAtCursor, jsRead] at h
    | bool b => simp [applyAtCursor, jsRead, jsWrite, isSomePlainObj] at h
    | num n => simp [applyAtCursor, jsRead, jsWrite, isSomePlainObj] at h
    | str s =>
      cases hsi : segIdx lk with
      | some i =>
        cases hget : s.data.get? i with
        | none => simp [applyAtCursor, jsRead, hsi, hget, jsWrite, isSomePlainObj] at h
        | some c => simp [applyAtCursor, jsRead, hsi, hget, jsWrite, isSomePlainObj] at h
      | none => simp [applyAtCursor, jsRead, hsi, jsWrite, isSomePlainObj] at h
    | obj kvs =>
      simp only [applyAtCursor, jsRead] at h
      split_ifs at h with hg hr hne
      · have hgAB := (Bool.and_eq_true .. ▸ hg).1
        have hC : isPlainObj nv = true := (Bool.and_eq_true .. ▸ hg).2
        have hA : isEditingObjectFields rows = true := (Bool.and_eq_true .. ▸ hgAB).1
        have hB : isSomePlainObj (lookupKey kvs (segKey lk)) = true :=
          (Bool.and_eq_true .. ▸ hgAB).2
        obtain ⟨tk, htk⟩ := isSomePlainObj_inv hB
        obtain ⟨nk, hnk⟩ := isPlainObj_inv hC
        subst hnk
        rw [htk] at h
        have h' : Except.ok (Json.obj (setKey kvs (segKey lk)
            (.obj (objMerge tk nk)))) = Except.ok w := h
        injection h' with h2
        subst h2
        have hnd : nodupKeys nk = true := (Bool.and_eq_true .. ▸ hnv).1
        exact applyAtCursor_replay_obj_merge rows lk kvs tk nk hA hnd
      · obtain ⟨hEF, hPO⟩ := renameShape_editing hr
        have hB : isSomePlainObj (lookupKey kvs (segKey lk)) = false := by
          cases hb : isSomePlainObj (lookupKey kvs (segKey lk)) with
          | false => rfl
          | true => exact absurd (by simp [hEF, hb, hPO]) hg
        cases hlk : lookupKey kvs (segKey lk) with
        | none =>
          rw [hlk] at h
          have h' : Except.ok (Json.obj (setKey kvs (segKey lk) nv)) = Except.ok w := h
          injection h' with h2
          subst h2
          exact applyAtCursor_replay_obj rows lk nv kvs hnv
        | some tv =>
          rw [hlk] at h
          cases tv with
          | obj pk => rw [hlk] at hB; simp [isSomePlainObj] at hB
          | null =>
            have h' : (Except.error EditErr.typeErr : Except EditErr Json) = Except.ok w := h
            simp at h'
          | bool b2 =>
            have h' : Except.ok (Json.obj (setKey kvs (segKey lk) nv)) = Except.ok w := h
            injection h' with h2
            subst h2
            exact applyAtCursor_replay_obj rows lk nv kvs hnv
          | num n2 =>
            have h' : Except.ok (Json.obj (setKey kvs (segKey lk) nv)) = Except.ok w := h
            injection h' with h2
            subst h2
            exact applyAtCursor_replay_obj rows lk nv kvs hnv
          | str s2 =>
            have h' : Except.ok (Json.obj (setKey kvs (segKey lk) nv)) = Except.ok w := h
            injection h' with h2
            subst h2
            exact applyAtCursor_replay_obj rows lk nv kvs hnv
          | arr xs2 =>
            have h' : Except.ok (Json.obj (setKey kvs (segKey lk) nv)) = Except.ok w := h
            injection h' with h2
            subst h2
            exact applyAtCursor_replay_obj rows lk nv kvs hnv
      · obtain ⟨hEF, hPO⟩ := renameShape_editing hr
        have hB : isSomePlainObj (lookupKey kvs (segKey lk)) = false := by
          cases hb : isSomePlainObj (lookupKey kvs (segKey lk)) with
          | false => rfl
          | true => exact absurd (by simp [hEF, hb, hPO]) hg
        cases hlk : lookupKey kvs (segKey lk) with
        | none =>
          rw [hlk] at h
          have h' : Except.ok (Json.obj (setKey kvs (segKey lk) nv)) = Except.ok w := h
          injection h' with h2
          subst h2
          exact applyAtCursor_replay_obj rows lk nv kvs hnv
        | some tv =>
          rw [hlk] at h
          cases tv with
          | obj pk => rw [hlk] at hB; simp [isSomePlainObj] at hB
          | null =>
            have h' : (Except.error EditErr.typeErr : Except EditErr Json) = Except.ok w := h
            simp at h'
          | bool b2 =>
            have h' : Except.ok (Json.obj (setKey kvs (segKey lk) nv)) = Except.ok w := h
            injection h' with h2
            subst h2
            exact applyAtCursor_replay_obj rows lk nv kvs hnv
          | num n2 =>
            have h' : Except.ok (Json.obj (setKey kvs (segKey lk) nv)) = Except.ok w := h
            injection h' with h2
            subst h2
            exact applyAtCursor_replay_obj rows lk nv kvs hnv
          | str s2 =>
            have h' : Except.ok (Json.obj (setKey kvs (segKey lk) nv)) = Except.ok w := h
            injection h' with h2
            subst h2
            exact applyAtCursor_replay_obj rows lk nv kvs hnv
          | arr xs2 =>
            have h' : Except.ok (Json.obj (setKey kvs (segKey lk) nv)) = Except.ok w := h
            injection h' with h2
            subst h2
            exact applyAtCursor_replay_obj rows lk nv kvs hnv
      · have h' : Except.ok (Json.obj (setKey kvs (segKey lk) nv)) = Except.ok w := h
        injection h' with h2
        subst h2
        exact applyAtCursor_replay_obj rows lk nv kvs hnv
    | arr xs =>
      cases hsi : segIdx lk with
      | none =>
        simp only [applyAtCursor, jsRead, hsi] at h
        rw [if_neg (by simp [isSomePlainObj])] at h
        by_cases hr : renameShape rows nv = true
        · rw [if_pos hr] at h
          have h' : jsWrite (Json.arr xs) lk nv = Except.ok w := h
          simp only [jsWrite, hsi] at h'
          injection h' with h2
          subst h2
          simp only [applyAtCursor, jsRead, hsi]
          rw [if_neg (by simp [isSomePlainObj]), if_pos hr]
          have hgoal : jsWrite (Json.arr xs) lk nv = Except.ok (Json.arr xs) := by
            simp only [jsWrite, hsi]
          exact hgoal
        · rw [if_neg hr] at h
          have h' : jsWrite (Json.arr xs) lk nv = Except.ok w := h
          simp only [jsWrite, hsi] at h'
          injection h' with h2
          subst h2
          simp only [applyAtCursor, jsRead, hsi]
          rw [if_neg (by simp [isSomePlainObj]), if_neg hr]
          simp only [jsWrite, hsi]
      | some i =>
        simp only [applyAtCursor, jsRead, hsi] at h
        split_ifs at h with hg hr hne
        · have hgAB := (Bool.and_eq_true .. ▸ hg).1
          have hC : isPlainObj nv = true := (Bool.and_eq_true .. ▸ hg).2
          have hA : isEditingObjectFields rows = true := (Bool.and_eq_true .. ▸ hgAB).1
          have hB : isSomePlainObj (xs.get? i) = true := (Bool.and_eq_true .. ▸ hgAB).2
          obtain ⟨tk, htk⟩ := isSomePlainObj_inv hB
          obtain ⟨nk, hnk⟩ := isPlainObj_inv hC
          subst hnk
          rw [htk] at h
          simp only [jsWrite, hsi] at h
          injection h with h2
          subst h2
          have hnd : nodupKeys nk = true := (Bool.and_eq_true .. ▸ hnv).1
          exact applyAtCursor_replay_arr_merge rows lk xs i tk nk hsi hA hnd
        · obtain ⟨hEF, hPO⟩ := renameShape_editing hr
          have hB : isSomePlainObj (xs.get? i) = false := by
            cases hb : isSomePlainObj (xs.get? i) with
            | false => rfl
            | true => exact absurd (by rw [hEF, hb, hPO]; rfl) hg
          cases hget : xs.get? i with
          | none =>
            rw [hget] at h
            have h' : jsWrite (Json.arr xs) lk nv = Except.ok w := h
            simp only [jsWrite, hsi] at h'
            injection h' with h2
            subst h2
            exact applyAtCursor_replay_arr rows lk nv xs i hsi hnv
          | some tv =>
            rw [hget] at h
            cases tv with
            | obj pk => rw [hget] at hB; simp [isSomePlainObj] at hB
            | null =>
              have h' : (Except.error EditErr.typeErr : Except EditErr Json) = Except.ok w := h
              simp at h'
            | bool b2 =>
              have h' : jsWrite (Json.arr xs) lk nv = Except.ok w := h
              simp only [jsWrite, hsi] at h'
              injection h' with h2
              subst h2
              exact applyAtCursor_replay_arr rows lk nv xs i hsi hnv
            | num n2 =>
              have h' : jsWrite (Json.arr xs) lk nv = Except.ok w := h
              simp only [jsWrite, hsi] at h'
              injection h' with h2
              subst h2
              exact applyAtCursor_replay_arr rows lk nv xs i hsi hnv
            | str s2 =>
              have h' : jsWrite (Json.arr xs) lk nv = Except.ok w := h
              simp only [jsWrite, hsi] at h'
              injection h' with h2
              subst h2
              exact applyAtCursor_replay_arr rows lk nv xs i hsi hnv
            | arr xs2 =>
              have h' : jsWrite (Json.arr xs) lk nv = Except.ok w := h
              simp only [jsWrite, hsi] at h'
              injection h' with h2
              subst h2
              exact applyAtCursor_replay_arr rows lk nv xs i hsi hnv
        · obtain ⟨hEF, hPO⟩ := renameShape_editing hr
          have hB : isSomePlainObj (xs.get? i) = false := by
            cases hb : isSomePlainObj (xs.get? i) with
            | false => rfl
            | true => exact absurd (by rw [hEF, hb, hPO]; rfl) hg
          cases hget : xs.get? i with
          | none =>
            rw [hget] at h
            have h' : jsWrite (Json.arr xs) lk nv = Except.ok w := h
            simp only [jsWrite, hsi] at h'
            injection h' with h2
            subst h2
            exact applyAtCursor_replay_arr rows lk nv xs i hsi hnv
          | some tv =>
            rw [hget] at h
            cases tv with
            | obj pk => rw [hget] at hB; simp [isSomePlainObj] at hB
            | null =>
              have h' : (Except.error EditErr.typeErr : Except EditErr Json) = Except.ok w := h
              simp at h'
            | bool b2 =>
              have h' : jsWrite (Json.arr xs) lk nv = Except.ok w := h
              simp only [jsWrite, hsi] at h'
              injection h' with h2
              subst h2
              exact applyAtCursor_replay_arr rows lk nv xs i hsi hnv
            | num n2 =>
              have h' : jsWrite (Json.arr xs) lk nv = Except.ok w := h
              simp only [jsWrite, hsi] at h'
              injection h' with h2
              subst h2
              exact applyAtCursor_replay_arr rows lk nv xs i hsi hnv
            | str s2 =>
              have h' : jsWrite (Json.arr xs) lk nv = Except.ok w := h
              simp only [jsWrite, hsi] at h'
              injection h' with h2
              subst h2
              exact applyAtCursor_replay_arr rows lk nv xs i hsi hnv
            | arr xs2 =>
              have h' : jsWrite (Json.arr xs) lk nv = Except.ok w := h
              simp only [jsWrite, hsi] at h'
              injection h' with h2
              subst h2
              exact applyAtCursor_replay_arr rows lk nv xs i hsi hnv
        · have h' : jsWrite (Json.arr xs) lk nv = Except.ok w := h
          simp only [jsWrite, hsi] at h'
          injection h' with h2
          subst h2
          exact applyAtCursor_replay_arr rows lk nv xs i hsi hnv

/-- Replaying a successful walk-and-mutate on its own result is a no-op,
provided the cursor-level mutation replays as a no-op. -/
theorem mutateAt_idem : ∀ (pp : List Seg) (cur : Option Json)
    (f : Option Json → Except EditErr Json) (w : Json),
    (∀ o w', f o = .ok w' → f (some w') = .ok w') →
    mutateAt cur pp f = .ok w → mutateAt (some w) pp f = .ok w := by
  intro pp
  induction pp with
  | nil =>
    intro cur f w hf h
    exact hf cur w h
  | cons seg rest ih =>
    intro cur f w hf h
    cases cur with
    | none => simp [mutateAt, jsRead] at h
    | some c =>
      simp only [mutateAt] at h
      cases hjr : jsRead (some c) seg with
      | error e => rw [hjr] at h; simp at h
      | ok child =>
        rw [hjr] at h
        simp only at h
        cases hmt : mutateAt child rest f with
        | error e => rw [hmt] at h; simp at h
        | ok newChild =>
          rw [hmt] at h
          simp only at h
          cases c with
          | null => simp [jsWrite] at h
          | bool b => simp [jsWrite] at h
          | num n => simp [jsWrite] at h
          | str s => simp [jsWrite] at h
          | obj kvs =>
            have h' : Except.ok (Json.obj (setKey kvs (segKey seg) newChild)) =
                Except.ok w := h
            injection h' with h2
            subst h2
            have hih := ih child f newChild hf hmt
            simp only [mutateAt, jsRead, lookupKey_setKey_self, hih]
            simp only [jsWrite, setKey_setKey_same]
          | arr xs =>
            cases hsi : segIdx seg with
            | some i =>
              have h' : jsWrite (Json.arr xs) seg newChild = Except.ok w := h
              simp only [jsWrite, hsi] at h'
              injection h' with h2
              subst h2
              have hih := ih child f newChild hf hmt
              simp only [mutateAt, jsRead, hsi, setIdx_get_self, hih]
              simp only [jsWrite, hsi, setIdx_absorb]
            | none =>
              have h' : jsWrite (Json.arr xs) seg newChild = Except.ok w := h
              simp only [jsWrite, hsi] at h'
              injection h' with h2
              subst h2
              have hrd : jsRead (some (Json.arr xs)) seg = .ok none := by
                simp [jsRead, hsi]
              have hchild : child = none := by
                rw [hrd] at hjr
                injection hjr with h3
                exact h3.symm
              subst hchild
              simp only [mutateAt, hrd, hmt]
              simp only [jsWrite, hsi]

/-- C9: the edit operation is idempotent — whenever a save succeeds, running
the same save again on its own output (same fieldShape, path and input)
returns the same document. -/
theorem claim_C9_idempotent (d text d1 : String) (rows : List Row)
    (path : List Seg) (h : save d rows path text = .ok d1) :
    save d1 rows path text = .ok d1 := by
  unfold save saveRun at h ⊢
  cases hpr : parseRoot d with
  | error e =>
    simp only [hpr, Except.map] at h
    exact absurd h (by simp)
  | ok pr =>
    simp only [hpr] at h
    cases hnv : determineNewValue rows text with
    | error e =>
      simp only [hnv, Except.map] at h
      exact absurd h (by simp)
    | ok nv =>
      simp only [hnv] at h
      have hprw := parseRoot_wf hpr
      have hnvw := determineNewValue_wf hnv
      cases hsl : splitLast path with
      | none =>
        simp only [hsl, Except.map] at h
        injection h with hs
        by_cases hg : (isEditingObjectFields rows && isPlainObj nv) = true
        · obtain ⟨nk, hnk⟩ := isPlainObj_inv (Bool.and_eq_true .. ▸ hg).2
          subst hnk
          have hnd : nodupKeys nk = true := (Bool.and_eq_true .. ▸ hnvw).1
          have hEF : isEditingObjectFields rows = true := (Bool.and_eq_true .. ▸ hg).1
          by_cases hpp : isPlainObj pr = true
          · obtain ⟨prk, hprk⟩ := isPlainObj_inv hpp
            subst hprk
            have hs2 : (saveRoot rows (.obj prk) (.obj nk)).1 =
                stringify (.obj (objMerge prk nk)) := by
              simp only [saveRoot, hEF, isPlainObj, Bool.and_true, Bool.true_and,
                if_true, spreadMerge]
            rw [← hs, hs2]
            have hRVw : wfJ (Json.obj (objMerge prk nk)) = true :=
              wfJ_objMerge hprw hnvw
            simp only [parseRoot_stringify hRVw, hnv, hsl]
            have hs4 : (saveRoot rows (.obj (objMerge prk nk)) (.obj nk)).1 =
                stringify (.obj (objMerge prk nk)) := by
              simp only [saveRoot, hEF, isPlainObj, Bool.and_true, Bool.true_and,
                if_true, spreadMerge, objMerge_absorb hnd]
            simp only [Except.map]
            rw [hs4]
          · have hpp' : isPlainObj pr = false := by
              cases hx : isPlainObj pr with
              | false => rfl
              | true => exact absurd hx hpp
            have hs2 : (saveRoot rows pr (.obj nk)).1 = stringify (.obj nk) := by
              simp only [saveRoot, hg, if_true, hpp', Bool.false_eq_true, if_false]
            rw [← hs, hs2]
            simp only [parseRoot_stringify hnvw, hnv, hsl]
            have hs4 : (saveRoot rows (.obj nk) (.obj nk)).1 = stringify (.obj nk) := by
              simp only [saveRoot, hEF, isPlainObj, Bool.and_true, Bool.true_and,
                if_true, spreadMerge]
              rw [objMerge_noop (fun kv hm => lookupKey_of_mem_nodup hm hnd)]
            simp only [Except.map]
            rw [hs4]
        · have hs2 : (saveRoot rows pr nv).1 = stringify nv := by
            simp only [saveRoot, hg, Bool.false_eq_true, if_false]
          rw [← hs, hs2]
          simp only [parseRoot_stringify hnvw, hnv, hsl]
          have hs4 : (saveRoot rows nv nv).1 = stringify nv := by
            simp only [saveRoot, hg, Bool.false_eq_true, if_false]
          simp only [Except.map]
          rw [hs4]
      | some pl =>
        obtain ⟨pp, lk⟩ := pl
        simp only [hsl] at h
        cases hmt : mutateAt (some pr) pp (applyAtCursor rows lk nv) with
        | error e =>
          simp only [hmt, Except.map] at h
          exact absurd h (by simp)
        | ok nr =>
          simp only [hmt, Except.map] at h
          injection h with hs
          have hw : wfJ nr = true := mutateAt_wf pp (some pr) _ nr hprw
            (fun o w' ho hf => applyAtCursor_wf hnvw ho hf) hmt
          rw [← hs]
          simp only [parseRoot_stringify hw, hnv, hsl]
          have hmt2 : mutateAt (some nr) pp (applyAtCursor rows lk nv) = .ok nr :=
            mutateAt_idem pp (some pr) _ nr
              (fun o w' hfo => applyAtCursor_idem hnvw hfo) hmt
          simp only [hmt2, Except.map]

/-- Witness for C9 at a concrete successful save. -/
theorem claim_C9_idempotent_witness : save "6" [] [] "6" = .ok "6" :=
  claim_C9_idempotent "" "6" "6" [] [] (by rfl)

theorem jsRead_error {cur : Option Json} {seg : Seg} {e : EditErr}
    (h : jsRead cur seg = .error e) : e = .typeErr := by
  cases cur with
  | none =>
    have h' : (Except.error EditErr.typeErr : Except EditErr (Option Json)) = .error e := h
    injection h' with h1
    exact h1.symm
  | some c =>
    cases c with
    | null =>
      have h' : (Except.error EditErr.typeErr : Except EditErr (Option Json)) = .error e := h
      injection h' with h1
      exact h1.symm
    | bool b => simp [jsRead] at h
    | num n => simp [jsRead] at h
    | str s =>
      simp only [jsRead] at h
      split at h <;> simp at h
    | arr xs =>
      simp only [jsRead] at h
      split at h <;> simp at h
    | obj kvs => simp [jsRead] at h

theorem walkSegs_error_typeErr : ∀ (pp : List Seg) (cur : Option Json) (e : EditErr),
    walkSegs cur pp = .error e → e = .typeErr := by
  intro pp
  induction pp with
  | nil => intro cur e h; simp [walkSegs] at h
  | cons seg rest ih =>
    intro cur e h
    simp only [walkSegs] at h
    cases hjr : jsRead cur seg with
    | error e2 =>
      rw [hjr] at h
      simp only at h
      injection h with h1
      subst h1
      exact jsRead_error hjr
    | ok child =>
      rw [hjr] at h
      simp only at h
      exact ih child e h

theorem mutateAt_of_walk_none : ∀ (pp : List Seg) (cur : Option Json)
    (f : Option Json → Except EditErr Json),
    walkSegs cur pp = .ok none → f none = .error .unresolvedPath →
    mutateAt cur pp f = .error .unresolvedPath := by
  intro pp
  induction pp with
  | nil =>
    intro cur f h hf
    have h' : cur = none := by simpa [walkSegs] using h
    subst h'
    exact hf
  | cons seg rest ih =>
    intro cur f h hf
    simp only [walkSegs] at h
    cases hjr : jsRead cur seg with
    | error e => rw [hjr] at h; simp at h
    | ok child =>
      rw [hjr] at h
      have h2 : walkSegs child rest = .ok none := h
      simp only [mutateAt, hjr, ih child f h2 hf]

theorem mutateAt_of_walk_error : ∀ (pp : List Seg) (cur : Option Json)
    (f : Option Json → Except EditErr Json) (e : EditErr),
    walkSegs cur pp = .error e → mutateAt cur pp f = .error e := by
  intro pp
  induction pp with
  | nil => intro cur f e h; simp [walkSegs] at h
  | cons seg rest ih =>
    intro cur f e h
    simp only [walkSegs] at h
    cases hjr : jsRead cur seg with
    | error e2 =>
      rw [hjr] at h
      have h' : (Except.error e2 : Except EditErr (Option Json)) = .error e := h
      injection h' with h1
      subst h1
      simp only [mutateAt, hjr]
    | ok child =>
      rw [hjr] at h
      have h' : walkSegs child rest = .error e := h
      simp only [mutateAt, hjr, ih child f e h']

/-- C4 (amended): when a non-empty path cannot be walked to its parent, the
save fails and the store and broadcast history are untouched; but the
explicit unresolved-path error is raised only when the parent walk lands on
`undefined` (a missing key read on a defined container).  A walk that reads a
property of `undefined` or `null` along the way instead throws a JavaScript
TypeError, not the handler's own unresolved-path error. -/
theorem claim_C4_unresolved_vs_typeerror (d text : String) (rows : List Row)
    (path pp : List Seg) (lk : Seg) (pr nv : Json) (st : ClickState)
    (hsl : splitLast path = some (pp, lk))
    (hpr : parseRoot d = .ok pr)
    (hnv : determineNewValue rows text = .ok nv)
    (hst : st.store = d) :
    (walkSegs (some pr) pp = .ok none →
      save d rows path text = .error .unresolvedPath ∧
      clickSave st rows path text = ⟨st.store, st.broadcasts, some .unresolvedPath⟩) ∧
    (∀ e, walkSegs (some pr) pp = .error e →
      e = .typeErr ∧ save d rows path text = .error .typeErr ∧
      clickSave st rows path text = ⟨st.store, st.broadcasts, some .typeErr⟩) := by
  have hrun : ∀ e', mutateAt (some pr) pp (applyAtCursor rows lk nv) = .error e' →
      saveRun d rows path text = .error e' := by
    intro e' hmt
    unfold saveRun
    simp only [hpr, hnv, hsl, hmt]
  constructor
  · intro hwalk
    have hmt := mutateAt_of_walk_none pp (some pr) (applyAtCursor rows lk nv) hwalk rfl
    have hr := hrun _ hmt
    constructor
    · unfold save
      rw [hr]
      rfl
    · exact clickSave_error st rows path text _ (hst ▸ hr)
  · intro e hwalk
    have he : e = .typeErr := walkSegs_error_typeErr pp (some pr) e hwalk
    subst he
    have hmt := mutateAt_of_walk_error pp (some pr) (applyAtCursor rows lk nv) _ hwalk
    have hr := hrun _ hmt
    refine ⟨rfl, ?_, ?_⟩
    · unfold save
      rw [hr]
      rfl
    · exact clickSave_error st rows path text _ (hst ▸ hr)

/-- Witness for the amended C4 on the spec's own example document. -/
theorem claim_C4_unresolved_vs_typeerror_witness :
    save "\x7b\"a\":1\x7d" [] [Seg.key "b", Seg.key "c"] "2" = .error .unresolvedPath :=
  (((claim_C4_unresolved_vs_typeerror "\x7b\"a\":1\x7d" "2" []
    [Seg.key "b", Seg.key "c"] [Seg.key "b"] (Seg.key "c")
    (Json.obj [("a", Json.num 1)]) (Json.num 2)
    ⟨"\x7b\"a\":1\x7d", [], none⟩ rfl (by rfl) (by rfl) rfl).1) (by rfl)).1

theorem walkSegs_none_ok {rest : List Seg} {cursor : Option Json}
    (h : walkSegs none rest = .ok cursor) : cursor = none := by
  cases rest with
  | nil =>
    have h' : (Except.ok (none : Option Json) : Except EditErr (Option Json)) = .ok cursor := h
    injection h' with h1
    exact h1.symm
  | cons seg r =>
    have h' : (Except.error EditErr.typeErr : Except EditErr (Option Json)) = .ok cursor := h
    simp at h'

theorem walkSegs_str : ∀ (rest : List Seg) (s : String) (cursor : Option Json),
    walkSegs (some (.str s)) rest = .ok cursor →
    cursor = none ∨ ∃ s', cursor = some (.str s') := by
  intro rest
  induction rest with
  | nil =>
    intro s cursor h
    have h' : (Except.ok (some (Json.str s)) : Except EditErr (Option Json)) = .ok cursor := h
    injection h' with h1
    exact Or.inr ⟨s, h1.symm⟩
  | cons seg r ih =>
    intro s cursor h
    simp only [walkSegs] at h
    cases hsi : segIdx seg with
    | none =>
      have hrd : jsRead (some (.str s)) seg = .ok none := by simp [jsRead, hsi]
      rw [hrd] at h
      have h2 : walkSegs none r = .ok cursor := h
      exact Or.inl (walkSegs_none_ok h2)
    | some i =>
      cases hget : s.data.get? i with
      | none =>
        have hrd : jsRead (some (.str s)) seg = .ok none := by
          simp only [jsRead, hsi, hget]
          rfl
        rw [hrd] at h
        have h2 : walkSegs none r = .ok cursor := h
        exact Or.inl (walkSegs_none_ok h2)
      | some c =>
        have hrd : jsRead (some (.str s)) seg = .ok (some (.str (String.mk [c]))) := by
          simp only [jsRead, hsi, hget]
          rfl
        rw [hrd] at h
        have h2 : walkSegs (some (.str (String.mk [c]))) r = .ok cursor := h
        exact ih _ cursor h2

theorem mutateAt_of_walk_obj : ∀ (pp : List Seg) (cur : Option Json)
    (f : Option Json → Except EditErr Json) (kvs : List (String × Json)) (nc : Json),
    walkSegs cur pp = .ok (some (.obj kvs)) → f (some (.obj kvs)) = .ok nc →
    ∃ w, mutateAt cur pp f = .ok w := by
  intro pp
  induction pp with
  | nil =>
    intro cur f kvs nc h hf
    have h' : cur = some (.obj kvs) := by simpa [walkSegs] using h
    subst h'
    exact ⟨nc, hf⟩
  | cons seg rest ih =>
    intro cur f kvs nc h hf
    simp only [walkSegs] at h
    cases hjr : jsRead cur seg with
    | error e => rw [hjr] at h; simp at h
    | ok child =>
      rw [hjr] at h
      have h2 : walkSegs child rest = .ok (some (.obj kvs)) := h
      obtain ⟨w', hw'⟩ := ih child f kvs nc h2 hf
      cases cur with
      | none => simp [jsRead] at hjr
      | some c =>
        cases c with
        | null => simp [jsRead] at hjr
        | bool b =>
          have hc : child = none := by
            have h3 : (Except.ok (none : Option Json) : Except EditErr (Option Json)) =
                .ok child := hjr
            injection h3 with h4
            exact h4.symm
          subst hc
          exact absurd (walkSegs_none_ok h2) (by simp)
        | num n =>
          have hc : child = none := by
            have h3 : (Except.ok (none : Option Json) : Except EditErr (Option Json)) =
                .ok child := hjr
            injection h3 with h4
            exact h4.symm
          subst hc
          exact absurd (walkSegs_none_ok h2) (by simp)
        | str s =>
          exfalso
          simp only [jsRead] at hjr
          cases hsi : segIdx seg with
          | none =>
            simp only [hsi] at hjr
            have hc : child = none := by
              injection hjr with h4
              exact h4.symm
            subst hc
            exact absurd (walkSegs_none_ok h2) (by simp)
          | some i =>
            simp only [hsi] at hjr
            cases hget : s.data.get? i with
            | none =>
              simp only [hget] at hjr
              have hc : child = none := by
                injection hjr with h4
                exact h4.symm
              subst hc
              exact absurd (walkSegs_none_ok h2) (by simp)
            | some ch =>
              simp only [hget] at hjr
              have hc : child = some (.str (String.mk [ch])) := by
                injection hjr with h4
                exact h4.symm
              subst hc
              rcases walkSegs_str rest _ _ h2 with he | ⟨s', he⟩ <;> simp at he
        | obj kvs2 =>
          refine ⟨.obj (setKey kvs2 (segKey seg) w'), ?_⟩
          simp only [mutateAt, hjr, hw', jsWrite]
        | arr xs =>
          cases hsi : segIdx seg with
          | some i =>
            refine ⟨.arr (setIdx xs i w'), ?_⟩
            simp only [mutateAt, hjr, hw', jsWrite, hsi]
          | none =>
            refine ⟨.arr xs, ?_⟩
            simp only [mutateAt, hjr, hw', jsWrite, hsi]

/-- C10 (amended): when the segments before the last resolve to an object
cursor and the final key is absent from it, the save succeeds: the merge
guard cannot fire on an undefined target and both remaining branches execute
the plain assignment, inserting the new value under the final key. -/
theorem claim_C10_absent_key_insert (d text : String) (rows : List Row)
    (path pp : List Seg) (lk : Seg) (pr nv : Json) (kvs : List (String × Json))
    (hsl : splitLast path = some (pp, lk))
    (hpr : parseRoot d = .ok pr)
    (hnv : determineNewValue rows text = .ok nv)
    (hwalk : walkSegs (some pr) pp = .ok (some (.obj kvs)))
    (habs : lookupKey kvs (segKey lk) = none) :
    applyAtCursor rows lk nv (some (.obj kvs)) =
      .ok (.obj (setKey kvs (segKey lk) nv)) ∧
    lookupKey (setKey kvs (segKey lk) nv) (segKey lk) = some nv ∧
    ∃ w, save d rows path text = .ok (stringify w) := by
  have hac : applyAtCursor rows lk nv (some (.obj kvs)) =
      .ok (.obj (setKey kvs (segKey lk) nv)) := by
    simp only [applyAtCursor, jsRead, habs]
    rw [if_neg (by simp [isSomePlainObj])]
    by_cases hr : renameShape rows nv = true
    · rw [if_pos hr]
      rfl
    · rw [if_neg hr]
      rfl
  refine ⟨hac, lookupKey_setKey_self _ _ _, ?_⟩
  obtain ⟨w, hw⟩ := mutateAt_of_walk_obj pp (some pr) (applyAtCursor rows lk nv)
    kvs (.obj (setKey kvs (segKey lk) nv)) hwalk hac
  refine ⟨w, ?_⟩
  unfold save saveRun
  simp only [hpr, hnv, hsl, hw, Except.map]

/-- Witness for the amended C10: inserting under an absent key of an object
parent succeeds. -/
theorem claim_C10_absent_key_insert_witness :
    applyAtCursor [] (Seg.key "b") (Json.num 1) (some (Json.obj [])) =
      .ok (.obj (setKey [] (segKey (Seg.key "b")) (Json.num 1))) ∧
    lookupKey (setKey [] (segKey (Seg.key "b")) (Json.num 1)) (segKey (Seg.key "b")) =
      some (Json.num 1) ∧
    ∃ w, save "\x7b\"a\":\x7b\x7d\x7d" [] [Seg.key "a", Seg.key "b"] "1" =
      .ok (stringify w) := by
  exact claim_C10_absent_key_insert "\x7b\"a\":\x7b\x7d\x7d" "1" []
    [Seg.key "a", Seg.key "b"] [Seg.key "a"] (Seg.key "b")
    (Json.obj [("a", Json.obj [])]) (Json.num 1) [] rfl (by rfl) (by rfl)
    (by rfl) (by rfl)
